import Mathlib

/-!
Verification of the BarsNLP named-entity recognition engine
(`ner/patterns.go`): a shallow embedding of the seven regex matchers,
the candidate aggregator, and the overlap resolver, followed by
theorems checking the natural-language specification against it.

Input strings are modelled as lists of UTF-8 bytes (`List Nat`), since
all entity offsets in the source are byte offsets.  Each Go regular
expression is translated into an explicit matcher on bytes; the Go
`regexp` scanning discipline (leftmost match, continue after the end of
the previous match) is modelled by `scanAll`.
-/

namespace NER

/-! ## Byte classes (Go regexp character classes, ASCII semantics) -/

/-- Go regexp `\s` = `[\t\n\f\r ]`. -/
def wsByte (b : Nat) : Bool := b = 9 || b = 10 || b = 12 || b = 13 || b = 32

/-- Go regexp `\d` = `[0-9]`. -/
def digitByte (b : Nat) : Bool := 48 ≤ b && b ≤ 57

/-- ASCII `[A-Z]`. -/
def upperByte (b : Nat) : Bool := 65 ≤ b && b ≤ 90

/-- ASCII `[a-z]`. -/
def lowerByte (b : Nat) : Bool := 97 ≤ b && b ≤ 122

/-- Go regexp `\w` = `[0-9A-Za-z_]`; used by the `\b` assertion.
Bytes ≥ 0x80 (all bytes of multi-byte UTF-8 characters) are not word
bytes, which is exactly Go's ASCII `\b` semantics. -/
def wordByte (b : Nat) : Bool := digitByte b || upperByte b || lowerByte b || b = 95

/-- Whether the byte at index `i` exists and is a word byte. -/
def wordAt (s : List Nat) (i : Nat) : Bool :=
  match s.get? i with
  | some b => wordByte b
  | none => false

/-- Word-ness of the byte just before position `p` (non-word at the
string start). -/
def prevWord (s : List Nat) : Nat → Bool
  | 0 => false
  | q + 1 => wordAt s q

/-- Go regexp `\b` at position `p`: the word-ness of the byte before `p`
differs from the word-ness of the byte at `p` (out of range counts as
non-word). -/
def boundary (s : List Nat) (p : Nat) : Bool :=
  prevWord s p != wordAt s p

/-! ## Elementary pattern pieces

A pattern piece maps a position to the position after what it consumed,
or `none` on failure. -/

/-- Consume one byte satisfying `c`. -/
def pByte (c : Nat → Bool) (s : List Nat) (p : Nat) : Option Nat :=
  match s.get? p with
  | some b => if c b then some (p + 1) else none
  | none => none

/-- Consume the exact byte sequence `bs`. -/
def pBytes : List Nat → List Nat → Nat → Option Nat
  | [], _, p => some p
  | b :: bs, s, p =>
    match s.get? p with
    | some x => if x = b then pBytes bs s (p + 1) else none
    | none => none

/-- Consume exactly `k` bytes, each satisfying `c` (regexp `c{k}`). -/
def pCount (c : Nat → Bool) : Nat → List Nat → Nat → Option Nat
  | 0, _, p => some p
  | k + 1, s, p => (pByte c s p).bind (pCount c k s)

/-- Optionally consume one byte satisfying `c` (regexp `c?`, greedy).
For every use below the byte class following the `?` is disjoint from
`c`, so greedy matching without backtracking is exact. -/
def pOptByte (c : Nat → Bool) (s : List Nat) (p : Nat) : Option Nat :=
  some (match s.get? p with
        | some b => if c b then p + 1 else p
        | none => p)

/-- Optionally consume one whitespace byte (regexp `\s?`). -/
def pOptWs (s : List Nat) (p : Nat) : Option Nat := pOptByte wsByte s p

/-- End of the maximal run of bytes satisfying `c` starting at `p`. -/
def runEnd (c : Nat → Bool) (s : List Nat) (p : Nat) : Nat :=
  p + ((s.drop p).takeWhile c).length

/-- Consume the maximal non-empty run of bytes satisfying `c`
(regexp `c+`, greedy; exact because nothing follows `+` in its uses). -/
def pPlus (c : Nat → Bool) (s : List Nat) (p : Nat) : Option Nat :=
  let e := runEnd c s p
  if p < e then some e else none

/-- Zero-width `\b` assertion. -/
def pBound (s : List Nat) (p : Nat) : Option Nat :=
  if boundary s p then some p else none

/-- Consume exactly `k` repetitions of the rune piece `f`. -/
def pRuneCount (f : List Nat → Nat → Option Nat) : Nat → List Nat → Nat → Option Nat
  | 0, _, p => some p
  | k + 1, s, p => (f s p).bind (pRuneCount f k s)

/-! ## The ten regular expressions of `ner/patterns.go`

Each `…At s p` decides whether the pattern matches at position `p` and
returns the end of the match (for the two labeled patterns: the capture
group, whose end coincides with the match end). -/

/-- `rePhoneIntl`: `\+994\s?(\d{2})\s?(\d{3})\s?(\d{2})\s?(\d{2})`. -/
def phoneIntlAt (s : List Nat) (p : Nat) : Option Nat :=
  (pBytes [43, 57, 57, 52] s p).bind fun q =>
  (pOptWs s q).bind fun q => (pCount digitByte 2 s q).bind fun q =>
  (pOptWs s q).bind fun q => (pCount digitByte 3 s q).bind fun q =>
  (pOptWs s q).bind fun q => (pCount digitByte 2 s q).bind fun q =>
  (pOptWs s q).bind fun q => pCount digitByte 2 s q

/-- `rePhoneLocal`: `\b0(\d{2})\s?(\d{3})\s?(\d{2})\s?(\d{2})\b`. -/
def phoneLocalAt (s : List Nat) (p : Nat) : Option Nat :=
  (pBound s p).bind fun q =>
  (pByte (fun b => b = 48) s q).bind fun q => (pCount digitByte 2 s q).bind fun q =>
  (pOptWs s q).bind fun q => (pCount digitByte 3 s q).bind fun q =>
  (pOptWs s q).bind fun q => (pCount digitByte 2 s q).bind fun q =>
  (pOptWs s q).bind fun q => (pCount digitByte 2 s q).bind fun q =>
  pBound s q

/-- Byte class of the email local part: `[a-zA-Z0-9._%+\-]`. -/
def emailLocalByte (b : Nat) : Bool :=
  digitByte b || upperByte b || lowerByte b ||
  b = 46 || b = 95 || b = 37 || b = 43 || b = 45

/-- Byte class of the email domain part: `[a-zA-Z0-9.\-]`. -/
def emailDomainByte (b : Nat) : Bool :=
  digitByte b || upperByte b || lowerByte b || b = 46 || b = 45

/-- ASCII `[a-zA-Z]` (the TLD class). -/
def letterByte (b : Nat) : Bool := upperByte b || lowerByte b

/-- Backtracking search for the domain's last usable dot: the largest
`i` (starting the search at the given index and descending, staying
above `a`) with `s[i] = '.'` followed by at least two ASCII letters;
returns the end of the maximal letter run after that dot.  This is the
leftmost-first (greedy) semantics of `[a-zA-Z0-9.\-]+\.[a-zA-Z]{2,}`. -/
def emailDotSearch (s : List Nat) (a : Nat) : Nat → Option Nat
  | 0 => none
  | i + 1 =>
    if i + 1 ≤ a then none
    else if s.get? (i + 1) = some 46 then
      if i + 4 ≤ runEnd letterByte s (i + 2) then some (runEnd letterByte s (i + 2))
      else emailDotSearch s a i
    else emailDotSearch s a i

/-- `reEmail`: `[a-zA-Z0-9._%+\-]+@[a-zA-Z0-9.\-]+\.[a-zA-Z]{2,}`: a
maximal non-empty run of local-part bytes, an `@` (position `a` starts
the domain), then the greedy domain/TLD split found by
`emailDotSearch` inside the maximal run of domain bytes. -/
def emailAt (s : List Nat) (p : Nat) : Option Nat :=
  (pPlus emailLocalByte s p).bind fun le =>
  (pByte (fun b => b = 64) s le).bind fun a =>
  emailDotSearch s a (runEnd emailDomainByte s a - 1)

/-- Byte class matched by `[^\s<>"{}|\\^`+"`"+` ]` in `reURL`: anything
except whitespace and the listed ASCII punctuation (every byte of a
multi-byte character is ≥ 0x80 and therefore allowed, matching Go's
rune-level negated class). -/
def urlByte (b : Nat) : Bool :=
  !(wsByte b || b = 60 || b = 62 || b = 34 || b = 123 || b = 125 ||
    b = 124 || b = 92 || b = 94 || b = 96)

/-- `reURL`: `https?://[^\s<>"{}|\\^`+"`"+` ]+`. -/
def urlAt (s : List Nat) (p : Nat) : Option Nat :=
  (pBytes [104, 116, 116, 112] s p).bind fun q =>
  (pOptByte (fun b => b = 115) s q).bind fun q =>
  (pBytes [58, 47, 47] s q).bind fun q =>
  pPlus urlByte s q

/-- `reIBAN`: `\bAZ\d{2}[A-Z]{4}[A-Z0-9]{20}\b`. -/
def ibanAt (s : List Nat) (p : Nat) : Option Nat :=
  (pBound s p).bind fun q =>
  (pBytes [65, 90] s q).bind fun q =>
  (pCount digitByte 2 s q).bind fun q =>
  (pCount upperByte 4 s q).bind fun q =>
  (pCount (fun b => upperByte b || digitByte b) 20 s q).bind fun q =>
  pBound s q

/-- `reLicensePlate`: `\b\d{2}-[A-Z]{2}-\d{3}\b`. -/
def plateAt (s : List Nat) (p : Nat) : Option Nat :=
  (pBound s p).bind fun q =>
  (pCount digitByte 2 s q).bind fun q =>
  (pByte (fun b => b = 45) s q).bind fun q =>
  (pCount upperByte 2 s q).bind fun q =>
  (pByte (fun b => b = 45) s q).bind fun q =>
  (pCount digitByte 3 s q).bind fun q =>
  pBound s q

/-- The class `[A-HJ-NP-Z0-9]` of `reFINBare` (not case-folded: the
bare pattern has no `(?i)` flag). -/
def finClassByte (b : Nat) : Bool :=
  digitByte b || (65 ≤ b && b ≤ 72) || (74 ≤ b && b ≤ 78) || (80 ≤ b && b ≤ 90)

/-- Single bytes matched by `[A-HJ-NP-Z0-9]` under the `(?i)` flag of
`reFINLabeled`: Go folds the class, adding `a-h`, `j-n` and `p-z`. -/
def finFoldedByte (b : Nat) : Bool :=
  finClassByte b ||
  (97 ≤ b && b ≤ 104) || (106 ≤ b && b ≤ 110) || (112 ≤ b && b ≤ 122)

/-- One rune of the case-folded class `(?i)[A-HJ-NP-Z0-9]`: an ASCII
byte of the folded class, or the two Unicode case-fold orbit members Go
adds — `ſ` (U+017F, bytes C5 BF, folds with `s`/`S`) and `K` (U+212A,
bytes E2 84 AA, folds with `k`/`K`). -/
def finClassRuneAt (s : List Nat) (p : Nat) : Option Nat :=
  (s.get? p).bind fun b =>
    if finFoldedByte b then some (p + 1)
    else if b = 197 && s.get? (p + 1) = some 191 then some (p + 2)
    else if b = 226 && s.get? (p + 1) = some 132 && s.get? (p + 2) = some 170 then
      some (p + 3)
    else none

/-- `reFINLabeled`: `(?i)\bFIN[:\s]\s?([A-HJ-NP-Z0-9]{7})\b`.  Returns
the capture group span `(code start, code end)`; the full match ends at
the code end, so the scanner resumes there. -/
def finLabeledAt (s : List Nat) (p : Nat) : Option (Nat × Nat) :=
  (pBound s p).bind fun q =>
  (pByte (fun b => b = 70 || b = 102) s q).bind fun q =>
  (pByte (fun b => b = 73 || b = 105) s q).bind fun q =>
  (pByte (fun b => b = 78 || b = 110) s q).bind fun q =>
  (pByte (fun b => b = 58 || wsByte b) s q).bind fun q =>
  (pOptWs s q).bind fun cs =>
  (pRuneCount finClassRuneAt 7 s cs).bind fun ce =>
  (pBound s ce).map fun _ => (cs, ce)

/-- `reFINBare`: `\b[A-HJ-NP-Z0-9]{7}\b`. -/
def finBareAt (s : List Nat) (p : Nat) : Option Nat :=
  (pBound s p).bind fun q =>
  (pCount finClassByte 7 s q).bind fun q =>
  pBound s q

/-- One rune of `(?i)[ÖO]` in `reVOENLabeled`: `O`, `o`, `Ö` (bytes
C3 96) or `ö` (bytes C3 B6). -/
def voenORuneAt (s : List Nat) (p : Nat) : Option Nat :=
  (s.get? p).bind fun b =>
    if b = 79 || b = 111 then some (p + 1)
    else if b = 195 && (s.get? (p + 1) = some 150 || s.get? (p + 1) = some 182) then
      some (p + 2)
    else none

/-- `reVOENLabeled`: `(?i)\bV[ÖO]EN[:\s]\s?(\d{10})\b`.  Returns the
capture group span. -/
def voenLabeledAt (s : List Nat) (p : Nat) : Option (Nat × Nat) :=
  (pBound s p).bind fun q =>
  (pByte (fun b => b = 86 || b = 118) s q).bind fun q =>
  (voenORuneAt s q).bind fun q =>
  (pByte (fun b => b = 69 || b = 101) s q).bind fun q =>
  (pByte (fun b => b = 78 || b = 110) s q).bind fun q =>
  (pByte (fun b => b = 58 || wsByte b) s q).bind fun q =>
  (pOptWs s q).bind fun cs =>
  (pCount digitByte 10 s cs).bind fun ce =>
  (pBound s ce).map fun _ => (cs, ce)

/-- `reVOENBare`: `\b\d{10}\b`. -/
def voenBareAt (s : List Nat) (p : Nat) : Option Nat :=
  (pBound s p).bind fun q =>
  (pCount digitByte 10 s q).bind fun q =>
  pBound s q

/-! ## FindAll scanning -/

/-- One step list of Go's `FindAllStringIndex` loop: starting at `p`,
report the leftmost matches one after another, resuming after the end
of each reported match.  `f p` yields the reported payload whose second
component is the position where scanning resumes.  The fuel argument is
an upper bound on the number of iterations (positions strictly
increase, so `n + 1` steps from position 0 always suffice). -/
def scanAux (f : Nat → Option (Nat × Nat)) (n : Nat) : Nat → Nat → List (Nat × Nat)
  | 0, _ => []
  | fuel + 1, p =>
    if p < n then
      match f p with
      | some m => m :: scanAux f n fuel (max m.2 (p + 1))
      | none => scanAux f n fuel (p + 1)
    else []

/-- All matches of `f` in a string of length `n`, leftmost first. -/
def scanAll (f : Nat → Option (Nat × Nat)) (n : Nat) : List (Nat × Nat) :=
  scanAux f n (n + 1) 0

/-- Lift a plain end-position pattern to a `(start, end)` payload. -/
def spans (g : Nat → Option Nat) : Nat → Option (Nat × Nat) :=
  fun p => (g p).map (fun e => (p, e))

/-! ## Entities -/

/-- The seven entity types of the `ner` package. -/
inductive EntityType where
  | Phone | Email | URL | IBAN | LicensePlate | FIN | VOEN
deriving DecidableEq, Repr

/-- A recognized span: `text` caches the matched bytes, `start`/`end`
are byte offsets into the input, `labeled` marks keyword-confirmed
FIN/VOEN matches. -/
structure Entity where
  text : List Nat
  start : Nat
  «end» : Nat
  type : EntityType
  labeled : Bool := false
deriving DecidableEq, Repr

/-- Go slicing `s[i:j]` on byte lists. -/
def slice (s : List Nat) (i j : Nat) : List Nat := (s.drop i).take (j - i)

/-- Build a plain (untrimmed) entity from a match span. -/
def mkEnt (s : List Nat) (t : EntityType) (lab : Bool) (m : Nat × Nat) : Entity :=
  { text := slice s m.1 m.2, start := m.1, «end» := m.2, type := t, labeled := lab }

/-- The trailing-punctuation cutset of `matchURL`: `.,;:!?)]}>`. -/
def puncByte (b : Nat) : Bool :=
  b = 46 || b = 44 || b = 59 || b = 58 || b = 33 || b = 63 ||
  b = 41 || b = 93 || b = 125 || b = 62

/-- `strings.TrimRight(text, ".,;:!?)]}>")` on bytes. -/
def trimPunct (l : List Nat) : List Nat := (l.reverse.dropWhile puncByte).reverse

/-! ## The seven matchers -/

/-- `matchPhone`: international then local format, both typed Phone. -/
def matchPhone (s : List Nat) : List Entity :=
  (scanAll (spans (phoneIntlAt s)) s.length).map (mkEnt s .Phone false) ++
  (scanAll (spans (phoneLocalAt s)) s.length).map (mkEnt s .Phone false)

/-- `matchEmail`. -/
def matchEmail (s : List Nat) : List Entity :=
  (scanAll (spans (emailAt s)) s.length).map (mkEnt s .Email false)

/-- `matchURL`: each raw match is trimmed of trailing punctuation and
its end offset shrunk to `start + len(text)`. -/
def matchURL (s : List Nat) : List Entity :=
  (scanAll (spans (urlAt s)) s.length).map fun m =>
    let text := trimPunct (slice s m.1 m.2)
    { text := text, start := m.1, «end» := m.1 + text.length, type := .URL,
      labeled := false }

/-- `matchIBAN`. -/
def matchIBAN (s : List Nat) : List Entity :=
  (scanAll (spans (ibanAt s)) s.length).map (mkEnt s .IBAN false)

/-- `matchLicensePlate`. -/
def matchLicensePlate (s : List Nat) : List Entity :=
  (scanAll (spans (plateAt s)) s.length).map (mkEnt s .LicensePlate false)

/-- `matchFIN`: labeled matches (the capture group is the span) then
bare matches. -/
def matchFIN (s : List Nat) : List Entity :=
  (scanAll (finLabeledAt s) s.length).map (mkEnt s .FIN true) ++
  (scanAll (spans (finBareAt s)) s.length).map (mkEnt s .FIN false)

/-- `matchVOEN`: labeled then bare. -/
def matchVOEN (s : List Nat) : List Entity :=
  (scanAll (voenLabeledAt s) s.length).map (mkEnt s .VOEN true) ++
  (scanAll (spans (voenBareAt s)) s.length).map (mkEnt s .VOEN false)

/-! ## Overlap resolution -/

/-- The comparator passed to `sort.Slice` in `resolveOverlaps`: start
ascending, then span length (computed in `int`, hence over `Int` here)
descending, then labeled first. -/
def entLess (a b : Entity) : Bool :=
  if a.start ≠ b.start then decide (a.start < b.start)
  else if (a.«end» : Int) - (a.start : Int) ≠ (b.«end» : Int) - (b.start : Int) then
    decide ((a.«end» : Int) - (a.start : Int) > (b.«end» : Int) - (b.start : Int))
  else if a.labeled ≠ b.labeled then a.labeled
  else false

/-- Insert into a list sorted by `entLess` (before the first element
not strictly smaller). -/
def insertEnt (e : Entity) : List Entity → List Entity
  | [] => [e]
  | f :: fs => if entLess f e then f :: insertEnt e fs else e :: f :: fs

/-- A sort consistent with the `entLess` comparator (the Go sort is
unstable but any order consistent with the comparator is a valid
refinement; this one is stable). -/
def sortEnt : List Entity → List Entity
  | [] => []
  | e :: es => insertEnt e (sortEnt es)

/-- The sweep loop of `resolveOverlaps`: commit when `start ≥ maxEnd`,
otherwise skip — both for partial overlaps (`end > maxEnd`, the
explicit `continue` branch) and for fully contained candidates. -/
def sweep : List Entity → Nat → List Entity
  | [], _ => []
  | e :: es, m =>
    if m ≤ e.start then e :: sweep es e.«end»
    else if m < e.«end» then sweep es m
    else sweep es m

/-- Modelled from the spec's words for the resolver sweep (§4.3 step 2,
also the text of claim C3): in a single left-to-right pass with `maxEnd`
initially 0, commit a candidate exactly when its `start ≥ maxEnd`
(setting `maxEnd` to its end) and discard every candidate whose
`start < maxEnd`, whether partially overlapping or contained. -/
def sweepSpec : List Entity → Nat → List Entity
  | [], _ => []
  | c :: rest, maxEnd =>
    if c.start ≥ maxEnd then c :: sweepSpec rest c.«end» else sweepSpec rest maxEnd

/-- `resolveOverlaps`: lists of length ≤ 1 are returned unchanged;
otherwise sort by the composite key and sweep from `maxEnd = 0`. -/
def resolveOverlaps (entities : List Entity) : List Entity :=
  if entities.length ≤ 1 then entities
  else sweep (sortEnt entities) 0

/-! ## The façade -/

/-- The aggregated candidate list of `recognize`, in matcher order. -/
def candidates (s : List Nat) : List Entity :=
  matchURL s ++ matchEmail s ++ matchIBAN s ++ matchLicensePlate s ++
  matchPhone s ++ matchFIN s ++ matchVOEN s

/-- Insert into a list sorted by start offset. -/
def insertStart (e : Entity) : List Entity → List Entity
  | [] => [e]
  | f :: fs => if f.start < e.start then f :: insertStart e fs else e :: f :: fs

/-- The final `sort.Slice` of `recognize`, ordering by start offset. -/
def sortByStart : List Entity → List Entity
  | [] => []
  | e :: es => insertStart e (sortByStart es)

/-- `recognize`: aggregate all matchers, return the empty result when
there is no candidate, else resolve overlaps and sort by start. -/
def recognize (s : List Nat) : List Entity :=
  if candidates s = [] then []
  else sortByStart (resolveOverlaps (candidates s))

/-! ## Byte encoding of test inputs -/

/-- UTF-8 encoding of one character. -/
def utf8Bytes (c : Char) : List Nat :=
  let n := c.toNat
  if n < 128 then [n]
  else if n < 2048 then [192 + n / 64, 128 + n % 64]
  else if n < 65536 then [224 + n / 4096, 128 + n / 64 % 64, 128 + n % 64]
  else [240 + n / 262144, 128 + n / 4096 % 64, 128 + n / 64 % 64, 128 + n % 64]

/-- UTF-8 bytes of a string. -/
def strBytes (s : String) : List Nat :=
  s.data.foldr (fun c acc => utf8Bytes c ++ acc) []

/-- A sample well-formed entity, used to instantiate universally
quantified theorems at a concrete value. -/
def egEnt : Entity :=
  { text := [65], start := 0, «end» := 1, type := EntityType.FIN, labeled := false }

/-- Declarative occurrence of the labeled-FIN pattern
`(?i)\bFIN[:\s]\s?([A-HJ-NP-Z0-9]{7})\b` at position `p` with capture
group `[cs, ce)`: a word boundary, the case-insensitive keyword `FIN`,
one `:`/whitespace separator byte, a greedily consumed optional
whitespace byte, then exactly seven case-folded class runes ending at a
word boundary. -/
def finLabeledOccur (s : List Nat) (p cs ce : Nat) : Prop :=
  boundary s p = true ∧
  (∃ b0, s.get? p = some b0 ∧ (b0 = 70 ∨ b0 = 102)) ∧
  (∃ b1, s.get? (p + 1) = some b1 ∧ (b1 = 73 ∨ b1 = 105)) ∧
  (∃ b2, s.get? (p + 2) = some b2 ∧ (b2 = 78 ∨ b2 = 110)) ∧
  (∃ b3, s.get? (p + 3) = some b3 ∧ (b3 = 58 ∨ wsByte b3 = true)) ∧
  ((cs = p + 4 ∧ ∀ b, s.get? (p + 4) = some b → wsByte b = false) ∨
   (cs = p + 5 ∧ ∃ b, s.get? (p + 4) = some b ∧ wsByte b = true)) ∧
  pRuneCount finClassRuneAt 7 s cs = some ce ∧
  boundary s ce = true

/-! ## Well-formedness of produced entities -/

/-- The span well-formedness invariant of claim C2: offsets are a
non-empty in-bounds range and `text` is exactly the input slice. -/
def entOK (s : List Nat) (e : Entity) : Prop :=
  e.start < e.«end» ∧ e.«end» ≤ s.length ∧ e.text = slice s e.start e.«end»

theorem get?_some_lt {s : List Nat} {i b : Nat} (h : s.get? i = some b) :
    i < s.length := by
  by_contra hlt
  rw [List.get?_eq_none.2 (by omega)] at h
  exact Option.noConfusion h

theorem pByte_some {c : Nat → Bool} {s : List Nat} {p q : Nat}
    (h : pByte c s p = some q) : q = p + 1 ∧ p < s.length := by
  unfold pByte at h
  cases hg : s.get? p with
  | none => rw [hg] at h; exact absurd h (by simp)
  | some b =>
    rw [hg] at h
    by_cases hc : c b
    · simp [hc] at h; exact ⟨h.symm, get?_some_lt hg⟩
    · simp [hc] at h

theorem pBytes_head {s : List Nat} {b : Nat} {bs : List Nat} {p q : Nat}
    (h : pBytes (b :: bs) s p = some q) : s.get? p = some b := by
  unfold pBytes at h
  cases hg : s.get? p with
  | none => rw [hg] at h; exact absurd h (by simp)
  | some x =>
    rw [hg] at h
    by_cases hx : x = b
    · rw [hx]
    · simp [hx] at h

theorem pBytes_some {s : List Nat} :
    ∀ bs p q, pBytes bs s p = some q → q = p + bs.length := by
  intro bs
  induction bs with
  | nil => intro p q h; unfold pBytes at h; simp at h; simp [h]
  | cons b rest ih =>
    intro p q h
    have hb := pBytes_head h
    unfold pBytes at h
    rw [hb] at h
    simp only [if_pos rfl] at h
    have := ih _ _ h
    simp [this]; omega

theorem pBytes_some_le {s : List Nat} :
    ∀ bs p q, bs ≠ [] → pBytes bs s p = some q → q ≤ s.length := by
  intro bs
  induction bs with
  | nil => intro p q h; exact absurd rfl h
  | cons b rest ih =>
    intro p q _ h
    have hb := pBytes_head h
    have hlt := get?_some_lt hb
    unfold pBytes at h
    rw [hb] at h
    simp only [if_pos rfl] at h
    cases rest with
    | nil => unfold pBytes at h; simp at h; omega
    | cons c cs => exact ih _ _ (by simp) h

theorem pCount_some {c : Nat → Bool} {s : List Nat} :
    ∀ k p q, pCount c k s p = some q → q = p + k ∧ (0 < k → q ≤ s.length) := by
  intro k
  induction k with
  | zero => intro p q h; unfold pCount at h; simp at h; simp [h]
  | succ n ih =>
    intro p q h
    unfold pCount at h
    simp only [Option.bind_eq_some] at h
    obtain ⟨q1, h1, h2⟩ := h
    obtain ⟨hq1, hplt⟩ := pByte_some h1
    obtain ⟨hq, hle⟩ := ih _ _ h2
    refine ⟨by omega, fun _ => ?_⟩
    cases n with
    | zero => unfold pCount at h2; simp at h2; omega
    | succ m => exact hle (by omega)

theorem pOptWs_some {s : List Nat} {p q : Nat} (h : pOptWs s p = some q) :
    p ≤ q ∧ q ≤ p + 1 := by
  unfold pOptWs pOptByte at h
  cases hg : s.get? p with
  | none => rw [hg] at h; simp at h; omega
  | some b =>
    rw [hg] at h
    by_cases hb : wsByte b
    · simp [hb] at h; omega
    · simp [hb] at h; omega

theorem pOptByte_some {c : Nat → Bool} {s : List Nat} {p q : Nat}
    (h : pOptByte c s p = some q) : p ≤ q ∧ q ≤ p + 1 := by
  unfold pOptByte at h
  cases hg : s.get? p with
  | none => rw [hg] at h; simp at h; omega
  | some b =>
    rw [hg] at h
    by_cases hb : c b
    · simp [hb] at h; omega
    · simp [hb] at h; omega

theorem takeWhile_length_le (c : Nat → Bool) :
    ∀ l : List Nat, (l.takeWhile c).length ≤ l.length := by
  intro l
  induction l with
  | nil => simp
  | cons a t ih => by_cases h : c a <;> simp [List.takeWhile_cons, h] <;> omega

theorem runEnd_le {c : Nat → Bool} {s : List Nat} {p : Nat} (h : p ≤ s.length) :
    runEnd c s p ≤ s.length := by
  unfold runEnd
  have h1 := takeWhile_length_le c (s.drop p)
  have h2 : (s.drop p).length = s.length - p := List.length_drop p s
  omega

theorem runEnd_ge {c : Nat → Bool} {s : List Nat} {p : Nat} :
    p ≤ runEnd c s p := by
  unfold runEnd; omega

theorem pPlus_some {c : Nat → Bool} {s : List Nat} {p q : Nat}
    (h : pPlus c s p = some q) : p < q ∧ q ≤ s.length := by
  unfold pPlus at h
  by_cases hlt : p < runEnd c s p
  · simp [hlt] at h
    have hple : p ≤ s.length := by
      by_contra hgt
      have : s.drop p = [] := List.drop_eq_nil_of_le (by omega)
      unfold runEnd at hlt
      rw [this] at hlt
      simp at hlt
    have := runEnd_le (c := c) hple
    omega
  · simp [hlt] at h

theorem wordAt_true_lt {s : List Nat} {i : Nat} (h : wordAt s i = true) :
    i < s.length := by
  unfold wordAt at h
  cases hg : s.get? i with
  | none => rw [hg] at h; simp at h
  | some b => exact get?_some_lt hg

theorem boundary_le {s : List Nat} {p : Nat} (h : boundary s p = true) :
    p ≤ s.length := by
  unfold boundary at h
  by_cases hp : wordAt s p = true
  · exact Nat.le_of_lt (wordAt_true_lt hp)
  · cases p with
    | zero => exact Nat.zero_le _
    | succ q =>
      by_cases hq : wordAt s q = true
      · have := wordAt_true_lt hq; omega
      · rw [Bool.not_eq_true] at hp hq
        simp [prevWord, hp, hq] at h

theorem pBound_some {s : List Nat} {p q : Nat} (h : pBound s p = some q) :
    q = p ∧ p ≤ s.length := by
  unfold pBound at h
  by_cases hb : boundary s p
  · simp [hb] at h; exact ⟨h.symm, boundary_le hb⟩
  · simp [hb] at h

theorem finClassRuneAt_some {s : List Nat} {p q : Nat}
    (h : finClassRuneAt s p = some q) : p < q ∧ q ≤ s.length := by
  unfold finClassRuneAt at h
  simp only [Option.bind_eq_some] at h
  obtain ⟨b, hg, h⟩ := h
  have hp := get?_some_lt hg
  split at h
  · injection h with h; omega
  · split at h
    · rename_i hc
      simp only [Bool.and_eq_true, decide_eq_true_eq] at hc
      have := get?_some_lt hc.2
      injection h with h
      omega
    · split at h
      · rename_i hc
        simp only [Bool.and_eq_true, decide_eq_true_eq] at hc
        have := get?_some_lt hc.2
        injection h with h
        omega
      · exact absurd h (by simp)

theorem voenORuneAt_some {s : List Nat} {p q : Nat}
    (h : voenORuneAt s p = some q) : p < q ∧ q ≤ s.length := by
  unfold voenORuneAt at h
  simp only [Option.bind_eq_some] at h
  obtain ⟨b, hg, h⟩ := h
  have hp := get?_some_lt hg
  split at h
  · injection h with h; omega
  · split at h
    · rename_i hc
      simp only [Bool.and_eq_true, Bool.or_eq_true, decide_eq_true_eq] at hc
      rcases hc.2 with hc2 | hc2
      · have hlt2 := get?_some_lt hc2
        injection h with h
        omega
      · have hlt2 := get?_some_lt hc2
        injection h with h
        omega
    · exact absurd h (by simp)

theorem pRuneCount_some {f : List Nat → Nat → Option Nat} {s : List Nat}
    (hf : ∀ p q, f s p = some q → p < q ∧ q ≤ s.length) :
    ∀ k p q, pRuneCount f k s p = some q →
      p ≤ q ∧ (0 < k → p < q ∧ q ≤ s.length) := by
  intro k
  induction k with
  | zero => intro p q h; unfold pRuneCount at h; simp at h; simp [h]
  | succ n ih =>
    intro p q h
    unfold pRuneCount at h
    simp only [Option.bind_eq_some] at h
    obtain ⟨q1, h1, h2⟩ := h
    obtain ⟨hlt, hle⟩ := hf _ _ h1
    obtain ⟨hq, hrec⟩ := ih _ _ h2
    cases n with
    | zero =>
      unfold pRuneCount at h2; simp at h2
      exact ⟨by omega, fun _ => by omega⟩
    | succ m =>
      obtain ⟨hlt2, hle2⟩ := hrec (by omega)
      exact ⟨by omega, fun _ => by omega⟩

theorem emailDotSearch_some {s : List Nat} {a : Nat} :
    ∀ i e, emailDotSearch s a i = some e → a < e ∧ e ≤ s.length := by
  intro i
  induction i with
  | zero => intro e h; unfold emailDotSearch at h; exact absurd h (by simp)
  | succ j ih =>
    intro e h
    unfold emailDotSearch at h
    split at h
    · exact absurd h (by simp)
    · rename_i hja
      split at h
      · rename_i hdot
        have hjlt := get?_some_lt hdot
        split at h
        · rename_i hrun
          injection h with h
          have hle : runEnd letterByte s (j + 2) ≤ s.length :=
            runEnd_le (by omega)
          omega
        · exact ih _ h
      · exact ih _ h

theorem emailAt_some {s : List Nat} {p q : Nat} (h : emailAt s p = some q) :
    p < q ∧ q ≤ s.length := by
  unfold emailAt at h
  simp only [Option.bind_eq_some] at h
  obtain ⟨le, h1, a, h2, h3⟩ := h
  obtain ⟨hp, _⟩ := pPlus_some h1
  obtain ⟨ha, _⟩ := pByte_some h2
  obtain ⟨haq, hle⟩ := emailDotSearch_some _ _ h3
  exact ⟨by omega, hle⟩

theorem phoneIntlAt_some {s : List Nat} {p q : Nat}
    (h : phoneIntlAt s p = some q) : p < q ∧ q ≤ s.length := by
  unfold phoneIntlAt at h
  simp only [Option.bind_eq_some] at h
  obtain ⟨q1, h1, q2, h2, q3, h3, q4, h4, q5, h5, q6, h6, q7, h7, q8, h8, h9⟩ := h
  have b1 := pBytes_some _ _ _ h1
  obtain ⟨b2, b2'⟩ := pOptWs_some h2
  obtain ⟨b3, _⟩ := pCount_some _ _ _ h3
  obtain ⟨b4, b4'⟩ := pOptWs_some h4
  obtain ⟨b5, _⟩ := pCount_some _ _ _ h5
  obtain ⟨b6, b6'⟩ := pOptWs_some h6
  obtain ⟨b7, _⟩ := pCount_some _ _ _ h7
  obtain ⟨b8, b8'⟩ := pOptWs_some h8
  obtain ⟨b9, hle⟩ := pCount_some _ _ _ h9
  have := hle (by omega)
  simp at b1
  omega

theorem phoneLocalAt_some {s : List Nat} {p q : Nat}
    (h : phoneLocalAt s p = some q) : p < q ∧ q ≤ s.length := by
  unfold phoneLocalAt at h
  simp only [Option.bind_eq_some] at h
  obtain ⟨q0, h0, q1, h1, q2, h2, q3, h3, q4, h4, q5, h5, q6, h6, q7, h7, q8, h8, h9⟩ := h
  obtain ⟨b0, _⟩ := pBound_some h0
  obtain ⟨b1, _⟩ := pByte_some h1
  obtain ⟨b2, _⟩ := pCount_some _ _ _ h2
  obtain ⟨b3, b3'⟩ := pOptWs_some h3
  obtain ⟨b4, _⟩ := pCount_some _ _ _ h4
  obtain ⟨b5, b5'⟩ := pOptWs_some h5
  obtain ⟨b6, _⟩ := pCount_some _ _ _ h6
  obtain ⟨b7, b7'⟩ := pOptWs_some h7
  obtain ⟨b8, hle8⟩ := pCount_some _ _ _ h8
  obtain ⟨b9, hb9⟩ := pBound_some h9
  have := hle8 (by omega)
  omega

theorem urlAt_some {s : List Nat} {p q : Nat}
    (h : urlAt s p = some q) : p < q ∧ q ≤ s.length := by
  unfold urlAt at h
  simp only [Option.bind_eq_some] at h
  obtain ⟨q1, h1, q2, h2, q3, h3, h4⟩ := h
  have b1 := pBytes_some _ _ _ h1
  obtain ⟨b2, b2'⟩ := pOptByte_some h2
  have b3 := pBytes_some _ _ _ h3
  obtain ⟨b4, hle⟩ := pPlus_some h4
  simp at b1 b3
  omega

theorem ibanAt_some {s : List Nat} {p q : Nat}
    (h : ibanAt s p = some q) : p < q ∧ q ≤ s.length := by
  unfold ibanAt at h
  simp only [Option.bind_eq_some] at h
  obtain ⟨q0, h0, q1, h1, q2, h2, q3, h3, q4, h4, h5⟩ := h
  obtain ⟨b0, _⟩ := pBound_some h0
  have b1 := pBytes_some _ _ _ h1
  obtain ⟨b2, _⟩ := pCount_some _ _ _ h2
  obtain ⟨b3, _⟩ := pCount_some _ _ _ h3
  obtain ⟨b4, hle4⟩ := pCount_some _ _ _ h4
  obtain ⟨b5, _⟩ := pBound_some h5
  have := hle4 (by omega)
  simp at b1
  omega

theorem plateAt_some {s : List Nat} {p q : Nat}
    (h : plateAt s p = some q) : p < q ∧ q ≤ s.length := by
  unfold plateAt at h
  simp only [Option.bind_eq_some] at h
  obtain ⟨q0, h0, q1, h1, q2, h2, q3, h3, q4, h4, q5, h5, h6⟩ := h
  obtain ⟨b0, _⟩ := pBound_some h0
  obtain ⟨b1, _⟩ := pCount_some _ _ _ h1
  obtain ⟨b2, _⟩ := pByte_some h2
  obtain ⟨b3, _⟩ := pCount_some _ _ _ h3
  obtain ⟨b4, _⟩ := pByte_some h4
  obtain ⟨b5, hle5⟩ := pCount_some _ _ _ h5
  obtain ⟨b6, _⟩ := pBound_some h6
  have := hle5 (by omega)
  omega

theorem finBareAt_some {s : List Nat} {p q : Nat}
    (h : finBareAt s p = some q) : p < q ∧ q ≤ s.length := by
  unfold finBareAt at h
  simp only [Option.bind_eq_some] at h
  obtain ⟨q0, h0, q1, h1, h2⟩ := h
  obtain ⟨b0, _⟩ := pBound_some h0
  obtain ⟨b1, hle1⟩ := pCount_some _ _ _ h1
  obtain ⟨b2, _⟩ := pBound_some h2
  have := hle1 (by omega)
  omega

theorem voenBareAt_some {s : List Nat} {p q : Nat}
    (h : voenBareAt s p = some q) : p < q ∧ q ≤ s.length := by
  unfold voenBareAt at h
  simp only [Option.bind_eq_some] at h
  obtain ⟨q0, h0, q1, h1, h2⟩ := h
  obtain ⟨b0, _⟩ := pBound_some h0
  obtain ⟨b1, hle1⟩ := pCount_some _ _ _ h1
  obtain ⟨b2, _⟩ := pBound_some h2
  have := hle1 (by omega)
  omega

theorem finLabeledAt_some {s : List Nat} {p : Nat} {m : Nat × Nat}
    (h : finLabeledAt s p = some m) :
    p < m.1 ∧ m.1 < m.2 ∧ m.2 ≤ s.length := by
  unfold finLabeledAt at h
  simp only [Option.bind_eq_some, Option.map_eq_some'] at h
  obtain ⟨q0, h0, q1, h1, q2, h2, q3, h3, q4, h4, cs, h5, ce, h6, q7, h7, h8⟩ := h
  obtain ⟨b0, _⟩ := pBound_some h0
  obtain ⟨b1, _⟩ := pByte_some h1
  obtain ⟨b2, _⟩ := pByte_some h2
  obtain ⟨b3, _⟩ := pByte_some h3
  obtain ⟨b4, _⟩ := pByte_some h4
  obtain ⟨b5, b5'⟩ := pOptWs_some h5
  obtain ⟨b6, hrc⟩ :=
    pRuneCount_some (fun p q hpq => finClassRuneAt_some hpq) _ _ _ h6
  obtain ⟨hcs, hce⟩ := hrc (by omega)
  obtain ⟨b7, _⟩ := pBound_some h7
  rw [← h8]
  exact ⟨by omega, by omega, by omega⟩

theorem voenLabeledAt_some {s : List Nat} {p : Nat} {m : Nat × Nat}
    (h : voenLabeledAt s p = some m) :
    p < m.1 ∧ m.1 < m.2 ∧ m.2 ≤ s.length := by
  unfold voenLabeledAt at h
  simp only [Option.bind_eq_some, Option.map_eq_some'] at h
  obtain ⟨q0, h0, q1, h1, q2, h2, q3, h3, q4, h4, q5, h5, cs, h6, ce, h7, q8, h8, h9⟩ := h
  obtain ⟨b0, _⟩ := pBound_some h0
  obtain ⟨b1, _⟩ := pByte_some h1
  obtain ⟨b2, _⟩ := voenORuneAt_some h2
  obtain ⟨b3, _⟩ := pByte_some h3
  obtain ⟨b4, _⟩ := pByte_some h4
  obtain ⟨b5, _⟩ := pByte_some h5
  obtain ⟨b6, b6'⟩ := pOptWs_some h6
  obtain ⟨b7, hle7⟩ := pCount_some _ _ _ h7
  have := hle7 (by omega)
  obtain ⟨b8, _⟩ := pBound_some h8
  rw [← h9]
  exact ⟨by omega, by omega, by omega⟩

/-! ## Scan membership -/

theorem mem_scanAux {f : Nat → Option (Nat × Nat)} {n : Nat} :
    ∀ fuel p m, m ∈ scanAux f n fuel p → ∃ q, f q = some m := by
  intro fuel
  induction fuel with
  | zero => intro p m h; simp [scanAux] at h
  | succ k ih =>
    intro p m h
    unfold scanAux at h
    split at h
    · split at h
      · rename_i m0 hf
        rcases List.mem_cons.1 h with h | h
        · exact ⟨p, by rw [hf, h]⟩
        · exact ih _ _ h
      · exact ih _ _ h
    · simp at h

theorem mem_scanAll {f : Nat → Option (Nat × Nat)} {n : Nat} {m : Nat × Nat}
    (h : m ∈ scanAll f n) : ∃ q, f q = some m :=
  mem_scanAux _ _ _ h

theorem spans_some {g : Nat → Option Nat} {q : Nat} {m : Nat × Nat}
    (h : spans g q = some m) : g q = some m.2 ∧ m.1 = q := by
  unfold spans at h
  cases hg : g q with
  | none => rw [hg] at h; exact absurd h (by simp)
  | some e =>
    rw [hg] at h
    simp at h
    rw [← h]
    exact ⟨rfl, rfl⟩

/-! ## Trailing-punctuation trimming -/

theorem trimPunct_append (l : List Nat) : ∃ d, l = trimPunct l ++ d := by
  refine ⟨(l.reverse.takeWhile puncByte).reverse, ?_⟩
  unfold trimPunct
  conv_lhs => rw [← List.reverse_reverse l,
    ← List.takeWhile_append_dropWhile (p := puncByte) (l := l.reverse)]
  rw [List.reverse_append]

theorem trimPunct_ne_nil {l : List Nat} {b : Nat} (hb : l.get? 0 = some b)
    (hp : puncByte b = false) : trimPunct l ≠ [] := by
  intro hnil
  unfold trimPunct at hnil
  rw [List.reverse_eq_nil_iff] at hnil
  have hall := List.dropWhile_eq_nil_iff.1 hnil
  have hbmem : b ∈ l := List.get?_mem hb
  have := hall b (List.mem_reverse.2 hbmem)
  rw [hp] at this
  exact Bool.noConfusion this

theorem slice_length {s : List Nat} {p r : Nat} (hr : r ≤ s.length) :
    (slice s p r).length = r - p := by
  unfold slice
  rw [List.length_take, List.length_drop]
  omega

theorem slice_take {s : List Nat} {p r k : Nat} (hk : k ≤ r - p) :
    slice s p (p + k) = (slice s p r).take k := by
  unfold slice
  rw [List.take_take]
  have h1 : p + k - p = k := by omega
  have h2 : min k (r - p) = k := by omega
  rw [h1, h2]

theorem slice_get?_zero {s : List Nat} {p r : Nat} (hpr : p < r) :
    (slice s p r).get? 0 = s.get? p := by
  unfold slice
  rw [List.get?_take (by omega), List.get?_drop]
  simp

/-! ## Every produced candidate is well-formed -/

theorem mkEnt_ok {s : List Nat} {t : EntityType} {lab : Bool} {m : Nat × Nat}
    (h1 : m.1 < m.2) (h2 : m.2 ≤ s.length) : entOK s (mkEnt s t lab m) :=
  ⟨h1, h2, rfl⟩

theorem urlAt_head {s : List Nat} {p q : Nat} (h : urlAt s p = some q) :
    s.get? p = some 104 := by
  unfold urlAt at h
  simp only [Option.bind_eq_some] at h
  obtain ⟨q1, h1, _⟩ := h
  exact pBytes_head h1

theorem matchURL_ok {s : List Nat} {e : Entity} (he : e ∈ matchURL s) :
    entOK s e ∧ e.type = EntityType.URL := by
  unfold matchURL at he
  rcases List.mem_map.1 he with ⟨m, hm, rfl⟩
  obtain ⟨q, hq⟩ := mem_scanAll hm
  obtain ⟨hg, h1⟩ := spans_some hq
  subst h1
  obtain ⟨hlt, hle⟩ := urlAt_some hg
  have hhead : (slice s m.1 m.2).get? 0 = some 104 := by
    rw [slice_get?_zero hlt]; exact urlAt_head hg
  have hne : trimPunct (slice s m.1 m.2) ≠ [] :=
    trimPunct_ne_nil hhead (by decide)
  obtain ⟨d, hd⟩ := trimPunct_append (slice s m.1 m.2)
  have hslen : (slice s m.1 m.2).length = m.2 - m.1 := slice_length hle
  have htle : (trimPunct (slice s m.1 m.2)).length ≤ m.2 - m.1 := by
    have := congrArg List.length hd
    rw [List.length_append] at this
    omega
  have htpos : 0 < (trimPunct (slice s m.1 m.2)).length :=
    List.length_pos.2 hne
  refine ⟨⟨by simp; omega, by simp; omega, ?_⟩, rfl⟩
  show trimPunct (slice s m.1 m.2) =
    slice s m.1 (m.1 + (trimPunct (slice s m.1 m.2)).length)
  rw [slice_take htle]
  have key : ∀ u v : List Nat, slice s m.1 m.2 = u ++ v →
      u = (slice s m.1 m.2).take u.length := by
    intro u v huv
    rw [huv, List.take_left]
  exact key _ d hd

theorem matchEmail_ok {s : List Nat} {e : Entity} (he : e ∈ matchEmail s) :
    entOK s e ∧ e.type = EntityType.Email := by
  unfold matchEmail at he
  rcases List.mem_map.1 he with ⟨m, hm, rfl⟩
  obtain ⟨q, hq⟩ := mem_scanAll hm
  obtain ⟨hg, h1⟩ := spans_some hq
  subst h1
  obtain ⟨hlt, hle⟩ := emailAt_some hg
  exact ⟨mkEnt_ok hlt hle, rfl⟩

theorem matchIBAN_ok {s : List Nat} {e : Entity} (he : e ∈ matchIBAN s) :
    entOK s e ∧ e.type = EntityType.IBAN := by
  unfold matchIBAN at he
  rcases List.mem_map.1 he with ⟨m, hm, rfl⟩
  obtain ⟨q, hq⟩ := mem_scanAll hm
  obtain ⟨hg, h1⟩ := spans_some hq
  subst h1
  obtain ⟨hlt, hle⟩ := ibanAt_some hg
  exact ⟨mkEnt_ok hlt hle, rfl⟩

theorem matchLicensePlate_ok {s : List Nat} {e : Entity}
    (he : e ∈ matchLicensePlate s) :
    entOK s e ∧ e.type = EntityType.LicensePlate := by
  unfold matchLicensePlate at he
  rcases List.mem_map.1 he with ⟨m, hm, rfl⟩
  obtain ⟨q, hq⟩ := mem_scanAll hm
  obtain ⟨hg, h1⟩ := spans_some hq
  subst h1
  obtain ⟨hlt, hle⟩ := plateAt_some hg
  exact ⟨mkEnt_ok hlt hle, rfl⟩

theorem matchPhone_ok {s : List Nat} {e : Entity} (he : e ∈ matchPhone s) :
    entOK s e ∧ e.type = EntityType.Phone := by
  unfold matchPhone at he
  rcases List.mem_append.1 he with he | he <;>
    rcases List.mem_map.1 he with ⟨m, hm, rfl⟩ <;>
    obtain ⟨q, hq⟩ := mem_scanAll hm <;>
    obtain ⟨hg, h1⟩ := spans_some hq <;>
    subst h1
  · obtain ⟨hlt, hle⟩ := phoneIntlAt_some hg
    exact ⟨mkEnt_ok hlt hle, rfl⟩
  · obtain ⟨hlt, hle⟩ := phoneLocalAt_some hg
    exact ⟨mkEnt_ok hlt hle, rfl⟩

theorem matchFIN_ok {s : List Nat} {e : Entity} (he : e ∈ matchFIN s) :
    entOK s e ∧ e.type = EntityType.FIN := by
  unfold matchFIN at he
  rcases List.mem_append.1 he with he | he
  · rcases List.mem_map.1 he with ⟨m, hm, rfl⟩
    obtain ⟨q, hq⟩ := mem_scanAll hm
    obtain ⟨_, hlt, hle⟩ := finLabeledAt_some hq
    exact ⟨mkEnt_ok hlt hle, rfl⟩
  · rcases List.mem_map.1 he with ⟨m, hm, rfl⟩
    obtain ⟨q, hq⟩ := mem_scanAll hm
    obtain ⟨hg, h1⟩ := spans_some hq
    subst h1
    obtain ⟨hlt, hle⟩ := finBareAt_some hg
    exact ⟨mkEnt_ok hlt hle, rfl⟩

theorem matchVOEN_ok {s : List Nat} {e : Entity} (he : e ∈ matchVOEN s) :
    entOK s e ∧ e.type = EntityType.VOEN := by
  unfold matchVOEN at he
  rcases List.mem_append.1 he with he | he
  · rcases List.mem_map.1 he with ⟨m, hm, rfl⟩
    obtain ⟨q, hq⟩ := mem_scanAll hm
    obtain ⟨_, hlt, hle⟩ := voenLabeledAt_some hq
    exact ⟨mkEnt_ok hlt hle, rfl⟩
  · rcases List.mem_map.1 he with ⟨m, hm, rfl⟩
    obtain ⟨q, hq⟩ := mem_scanAll hm
    obtain ⟨hg, h1⟩ := spans_some hq
    subst h1
    obtain ⟨hlt, hle⟩ := voenBareAt_some hg
    exact ⟨mkEnt_ok hlt hle, rfl⟩

theorem candidates_ok {s : List Nat} {e : Entity} (he : e ∈ candidates s) :
    entOK s e := by
  unfold candidates at he
  simp only [List.mem_append] at he
  rcases he with ((((((he | he) | he) | he) | he) | he) | he)
  · exact (matchURL_ok he).1
  · exact (matchEmail_ok he).1
  · exact (matchIBAN_ok he).1
  · exact (matchLicensePlate_ok he).1
  · exact (matchPhone_ok he).1
  · exact (matchFIN_ok he).1
  · exact (matchVOEN_ok he).1

/-! ## The comparator is a strict weak order -/

theorem entLess_iff {a b : Entity} : entLess a b = true ↔
    a.start < b.start ∨
    (a.start = b.start ∧
      ((a.«end» : Int) - a.start > (b.«end» : Int) - b.start ∨
       ((a.«end» : Int) - (a.start : Int) = (b.«end» : Int) - b.start ∧
        a.labeled = true ∧ b.labeled = false))) := by
  unfold entLess
  split_ifs with h1 h2 h3
  · simp only [decide_eq_true_eq]
    constructor
    · intro h; exact Or.inl h
    · rintro (h | ⟨h, _⟩)
      · exact h
      · exact absurd h h1
  · simp only [decide_eq_true_eq]
    constructor
    · intro h
      exact Or.inr ⟨by omega, Or.inl h⟩
    · rintro (h | ⟨h, hlen | ⟨hlen, _⟩⟩)
      · omega
      · exact hlen
      · exact absurd hlen h2
  · push_neg at h1 h2
    constructor
    · intro h
      refine Or.inr ⟨h1, Or.inr ⟨h2, h, ?_⟩⟩
      cases hlb : b.labeled
      · rfl
      · rw [h, hlb] at h3; exact absurd rfl h3
    · rintro (h | ⟨h, hlen | ⟨_, h4, _⟩⟩)
      · omega
      · omega
      · exact h4
  · push_neg at h1 h2 h3
    simp only [Bool.false_eq_true, false_iff]
    rintro (h | ⟨h, hlen | ⟨_, h4, h5⟩⟩)
    · omega
    · omega
    · rw [h3, h5] at h4; exact Bool.noConfusion h4

theorem entLess_irrefl (a : Entity) : entLess a a = false := by
  unfold entLess
  simp

theorem entLess_asymm {a b : Entity} (h : entLess a b = true) :
    entLess b a = false := by
  rw [entLess_iff] at h
  rw [Bool.eq_false_iff]
  intro hx
  rw [entLess_iff] at hx
  rcases h with h | ⟨h, h2⟩ <;> rcases hx with hx | ⟨hx, hx2⟩
  · omega
  · omega
  · omega
  · rcases h2 with h2 | ⟨h2, h3, h4⟩ <;> rcases hx2 with hx2 | ⟨hx2, hx3, hx4⟩
    · omega
    · omega
    · omega
    · rw [h3] at hx4; exact Bool.noConfusion hx4

theorem entLess_negTrans {a b c : Entity} (hab : entLess a b = false)
    (hbc : entLess b c = false) : entLess a c = false := by
  rw [Bool.eq_false_iff] at hab hbc
  rw [Bool.eq_false_iff]
  intro hx
  rw [entLess_iff] at hx
  have hab' : ¬ (a.start < b.start ∨
      (a.start = b.start ∧
        ((a.«end» : Int) - a.start > (b.«end» : Int) - b.start ∨
         ((a.«end» : Int) - (a.start : Int) = (b.«end» : Int) - b.start ∧
          a.labeled = true ∧ b.labeled = false)))) := fun hh => hab (entLess_iff.2 hh)
  have hbc' : ¬ (b.start < c.start ∨
      (b.start = c.start ∧
        ((b.«end» : Int) - b.start > (c.«end» : Int) - c.start ∨
         ((b.«end» : Int) - (b.start : Int) = (c.«end» : Int) - c.start ∧
          b.labeled = true ∧ c.labeled = false)))) := fun hh => hbc (entLess_iff.2 hh)
  push_neg at hab' hbc'
  obtain ⟨hab1, hab2⟩ := hab'
  obtain ⟨hbc1, hbc2⟩ := hbc'
  cases hla : a.labeled <;> cases hlb : b.labeled <;> cases hlc : c.labeled <;>
    simp_all <;> omega

/-! ## Sorting lemmas -/

theorem insertEnt_perm (e : Entity) (l : List Entity) :
    (insertEnt e l).Perm (e :: l) := by
  induction l with
  | nil => exact List.Perm.refl _
  | cons f fs ih =>
    unfold insertEnt
    by_cases h : entLess f e
    · simp only [if_pos h]
      exact ((ih.cons f).trans (List.Perm.swap e f fs))
    · simp only [if_neg h]
      exact List.Perm.refl _

theorem sortEnt_perm (l : List Entity) : (sortEnt l).Perm l := by
  induction l with
  | nil => exact List.Perm.refl _
  | cons e es ih =>
    unfold sortEnt
    exact (insertEnt_perm e (sortEnt es)).trans (ih.cons e)

theorem mem_sortEnt {x : Entity} {l : List Entity} :
    x ∈ sortEnt l ↔ x ∈ l := (sortEnt_perm l).mem_iff

theorem mem_insertEnt {x e : Entity} {l : List Entity} :
    x ∈ insertEnt e l ↔ x = e ∨ x ∈ l := by
  rw [(insertEnt_perm e l).mem_iff, List.mem_cons]

theorem insertEnt_pairwise {e : Entity} {l : List Entity}
    (h : l.Pairwise (fun a b => entLess b a = false)) :
    (insertEnt e l).Pairwise (fun a b => entLess b a = false) := by
  induction l with
  | nil => simp [insertEnt]
  | cons f fs ih =>
    rcases List.pairwise_cons.1 h with ⟨hf, hfs⟩
    unfold insertEnt
    by_cases hc : entLess f e
    · simp only [if_pos hc]
      refine List.pairwise_cons.2 ⟨?_, ih hfs⟩
      intro y hy
      rcases mem_insertEnt.1 hy with rfl | hy
      · exact entLess_asymm hc
      · exact hf y hy
    · simp only [if_neg hc]
      refine List.pairwise_cons.2 ⟨?_, h⟩
      intro y hy
      rcases List.mem_cons.1 hy with rfl | hy
      · exact Bool.eq_false_iff.2 hc
      · exact entLess_negTrans (hf y hy) (Bool.eq_false_iff.2 hc)

theorem sortEnt_pairwise (l : List Entity) :
    (sortEnt l).Pairwise (fun a b => entLess b a = false) := by
  induction l with
  | nil => simp [sortEnt]
  | cons e es ih => exact insertEnt_pairwise ih

theorem insertStart_perm (e : Entity) (l : List Entity) :
    (insertStart e l).Perm (e :: l) := by
  induction l with
  | nil => exact List.Perm.refl _
  | cons f fs ih =>
    unfold insertStart
    by_cases h : f.start < e.start
    · simp only [if_pos h]
      exact ((ih.cons f).trans (List.Perm.swap e f fs))
    · simp only [if_neg h]
      exact List.Perm.refl _

theorem sortByStart_perm (l : List Entity) : (sortByStart l).Perm l := by
  induction l with
  | nil => exact List.Perm.refl _
  | cons e es ih =>
    unfold sortByStart
    exact (insertStart_perm e (sortByStart es)).trans (ih.cons e)

theorem sortByStart_of_sorted {l : List Entity}
    (h : l.Pairwise (fun a b => a.start < b.start)) : sortByStart l = l := by
  induction l with
  | nil => rfl
  | cons e es ih =>
    rcases List.pairwise_cons.1 h with ⟨he, hes⟩
    unfold sortByStart
    rw [ih hes]
    cases es with
    | nil => rfl
    | cons f fs =>
      unfold insertStart
      have : ¬ f.start < e.start := by
        have := he f (List.mem_cons_self _ _)
        omega
      simp only [if_neg this]

/-! ## Sweep lemmas -/

theorem sweep_subset {l : List Entity} :
    ∀ m x, x ∈ sweep l m → x ∈ l := by
  induction l with
  | nil => intro m x h; simp [sweep] at h
  | cons e es ih =>
    intro m x h
    unfold sweep at h
    by_cases hc : m ≤ e.start
    · simp only [if_pos hc] at h
      rcases List.mem_cons.1 h with rfl | h
      · exact List.mem_cons_self _ _
      · exact List.mem_cons_of_mem _ (ih _ _ h)
    · simp only [if_neg hc] at h
      have hcollapse : (if m < e.«end» then sweep es m else sweep es m) = sweep es m := by
        split <;> rfl
      rw [hcollapse] at h
      exact List.mem_cons_of_mem _ (ih _ _ h)

theorem sweep_pairwise {l : List Entity} :
    ∀ m, (∀ e ∈ l, e.start < e.«end») →
      (sweep l m).Pairwise (fun a b => a.«end» ≤ b.start) ∧
      ∀ x ∈ sweep l m, m ≤ x.start := by
  induction l with
  | nil => intro m _; simp [sweep]
  | cons e es ih =>
    intro m hwf
    unfold sweep
    by_cases hc : m ≤ e.start
    · simp only [if_pos hc]
      obtain ⟨hp, hs⟩ := ih e.«end» (fun x hx => hwf x (List.mem_cons_of_mem _ hx))
      refine ⟨List.pairwise_cons.2 ⟨fun y hy => hs y hy, hp⟩, ?_⟩
      intro x hx
      rcases List.mem_cons.1 hx with rfl | hx
      · exact hc
      · have h1 := hs x hx
        have h2 := hwf e (List.mem_cons_self _ _)
        omega
    · simp only [if_neg hc]
      have hcollapse : (if m < e.«end» then sweep es m else sweep es m) = sweep es m := by
        split <;> rfl
      rw [hcollapse]
      exact ih m (fun x hx => hwf x (List.mem_cons_of_mem _ hx))

theorem sweep_eq_sweepSpec {l : List Entity} : ∀ m, sweep l m = sweepSpec l m := by
  induction l with
  | nil => intro m; rfl
  | cons e es ih =>
    intro m
    unfold sweep sweepSpec
    by_cases hc : m ≤ e.start
    · rw [if_pos hc, if_pos (by omega : e.start ≥ m), ih]
    · rw [if_neg hc, if_neg (by omega : ¬ e.start ≥ m)]
      have hcollapse : (if m < e.«end» then sweep es m else sweep es m) = sweep es m := by
        split <;> rfl
      rw [hcollapse, ih]

/-! ## Resolver and façade lemmas -/

theorem resolveOverlaps_eq_spec (l : List Entity) :
    resolveOverlaps l = sweepSpec (sortEnt l) 0 := by
  unfold resolveOverlaps
  rcases l with _ | ⟨a, _ | ⟨b, t⟩⟩
  · rfl
  · simp only [List.length_singleton]
    rw [if_pos (by omega)]
    show [a] = sweepSpec (insertEnt a (sortEnt [])) 0
    show [a] = sweepSpec [a] 0
    unfold sweepSpec
    rw [if_pos (by omega : a.start ≥ 0)]
    rfl
  · rw [if_neg (by simp), sweep_eq_sweepSpec]

theorem resolveOverlaps_subset {l : List Entity} {x : Entity}
    (h : x ∈ resolveOverlaps l) : x ∈ l := by
  unfold resolveOverlaps at h
  split at h
  · exact h
  · exact mem_sortEnt.1 (sweep_subset _ _ h)

theorem resolveOverlaps_pairwise {l : List Entity}
    (hwf : ∀ e ∈ l, e.start < e.«end») :
    (resolveOverlaps l).Pairwise (fun a b => a.«end» ≤ b.start) := by
  unfold resolveOverlaps
  rcases l with _ | ⟨a, _ | ⟨b, t⟩⟩
  · simp
  · simp
  · rw [if_neg (by simp)]
    exact (sweep_pairwise 0 (fun x hx => hwf x (mem_sortEnt.1 hx))).1

theorem recognize_subset {s : List Nat} {e : Entity} (h : e ∈ recognize s) :
    e ∈ candidates s := by
  unfold recognize at h
  split at h
  · simp at h
  · exact resolveOverlaps_subset ((sortByStart_perm _).mem_iff.1 h)

theorem recognize_strong_pairwise (s : List Nat) :
    (recognize s).Pairwise (fun a b => a.«end» ≤ b.start ∧ a.start < b.start) := by
  unfold recognize
  split
  · simp
  · have hwf : ∀ e ∈ candidates s, e.start < e.«end» :=
      fun e he => (candidates_ok he).1
    have hro := resolveOverlaps_pairwise hwf
    have hro' : (resolveOverlaps (candidates s)).Pairwise
        (fun a b => a.«end» ≤ b.start ∧ a.start < b.start) := by
      refine hro.imp_of_mem ?_
      intro a b ha hb hab
      have := hwf a (resolveOverlaps_subset ha)
      exact ⟨hab, by omega⟩
    rw [sortByStart_of_sorted (hro'.imp (fun h => h.2))]
    exact hro'

theorem candidates_url {s : List Nat} {e : Entity} (he : e ∈ candidates s)
    (ht : e.type = EntityType.URL) : e ∈ matchURL s := by
  unfold candidates at he
  simp only [List.mem_append] at he
  rcases he with ((((((he | he) | he) | he) | he) | he) | he)
  · exact he
  · rw [(matchEmail_ok he).2] at ht; exact absurd ht (by simp)
  · rw [(matchIBAN_ok he).2] at ht; exact absurd ht (by simp)
  · rw [(matchLicensePlate_ok he).2] at ht; exact absurd ht (by simp)
  · rw [(matchPhone_ok he).2] at ht; exact absurd ht (by simp)
  · rw [(matchFIN_ok he).2] at ht; exact absurd ht (by simp)
  · rw [(matchVOEN_ok he).2] at ht; exact absurd ht (by simp)

/-! ## Slice decomposition and run characterization -/

theorem slice_append {s : List Nat} {p q r : Nat} (hpq : p ≤ q) (hqr : q ≤ r) :
    slice s p q ++ slice s q r = slice s p r := by
  unfold slice
  have hr : r - p = (q - p) + (r - q) := by omega
  rw [hr, List.take_add]
  congr 1
  rw [List.drop_drop]
  congr 2
  omega

theorem take_one_of_get? {l : List Nat} {b : Nat} (h : l.get? 0 = some b) :
    l.take 1 = [b] := by
  cases l with
  | nil => simp at h
  | cons a t =>
    simp at h
    rw [h]
    rfl

theorem slice_singleton {s : List Nat} {i b : Nat} (h : s.get? i = some b) :
    slice s i (i + 1) = [b] := by
  unfold slice
  have h1 : i + 1 - i = 1 := by omega
  rw [h1]
  apply take_one_of_get?
  rw [List.get?_drop]
  simpa using h

theorem pBytes_slice {s : List Nat} :
    ∀ bs p q, pBytes bs s p = some q → slice s p q = bs := by
  intro bs
  induction bs with
  | nil =>
    intro p q h
    unfold pBytes at h
    simp at h
    subst h
    simp [slice]
  | cons b rest ih =>
    intro p q h
    have hb := pBytes_head h
    unfold pBytes at h
    rw [hb] at h
    simp only [if_pos rfl] at h
    have hq := pBytes_some _ _ _ h
    have hrec := ih _ _ h
    have hsplit := slice_append (s := s) (p := p) (q := p + 1) (r := q)
      (by omega) (by omega)
    rw [← hsplit, slice_singleton hb, hrec]
    rfl

theorem takeWhile_sat {c : Nat → Bool} :
    ∀ (l : List Nat) (j : Nat), j < (l.takeWhile c).length →
      ∃ b, l.get? j = some b ∧ c b = true := by
  intro l
  induction l with
  | nil => intro j h; simp at h
  | cons a t ih =>
    intro j h
    by_cases hc : c a
    · rw [List.takeWhile_cons, if_pos hc] at h
      cases j with
      | zero => exact ⟨a, rfl, hc⟩
      | succ i =>
        simp only [List.length_cons] at h
        exact ih i (by omega)
    · rw [List.takeWhile_cons, if_neg hc] at h
      simp at h

theorem pOptByte_cases {c : Nat → Bool} {s : List Nat} {p q : Nat}
    (h : pOptByte c s p = some q) :
    (q = p ∧ ∀ b, s.get? p = some b → c b = false) ∨
    (q = p + 1 ∧ ∃ b, s.get? p = some b ∧ c b = true) := by
  unfold pOptByte at h
  injection h with h
  cases hg : s.get? p with
  | none =>
    rw [hg] at h
    refine Or.inl ⟨h.symm, ?_⟩
    intro b hb
    exact absurd hb (by simp)
  | some b =>
    rw [hg] at h
    have h' : (if c b then p + 1 else p) = q := h
    by_cases hc : c b
    · rw [if_pos hc] at h'
      exact Or.inr ⟨h'.symm, b, rfl, hc⟩
    · rw [if_neg hc] at h'
      refine Or.inl ⟨h'.symm, ?_⟩
      intro b' hb'
      injection hb' with hb'
      rw [← hb']
      exact Bool.eq_false_iff.2 hc

theorem runEnd_sat {c : Nat → Bool} {s : List Nat} {p i : Nat}
    (hpi : p ≤ i) (hi : i < runEnd c s p) :
    ∃ b, s.get? i = some b ∧ c b = true := by
  unfold runEnd at hi
  obtain ⟨b, hb, hc⟩ := takeWhile_sat (c := c) (s.drop p) (i - p) (by omega)
  rw [List.get?_drop] at hb
  have : p + (i - p) = i := by omega
  rw [this] at hb
  exact ⟨b, hb, hc⟩

/-! ## The labeled-FIN pattern: characterization and non-overlap -/

theorem pByte_char {c : Nat → Bool} {s : List Nat} {p q : Nat}
    (h : pByte c s p = some q) :
    q = p + 1 ∧ ∃ b, s.get? p = some b ∧ c b = true := by
  unfold pByte at h
  cases hg : s.get? p with
  | none => rw [hg] at h; exact absurd h (by simp)
  | some b =>
    rw [hg] at h
    have h' : (if c b then some (p + 1) else none) = some q := h
    by_cases hc : c b
    · rw [if_pos hc] at h'
      injection h' with h'
      exact ⟨h'.symm, b, rfl, hc⟩
    · rw [if_neg hc] at h'
      exact absurd h' (by simp)

theorem pRuneCount_zero {f : List Nat → Nat → Option Nat} {s : List Nat}
    {p q : Nat} (h : pRuneCount f 0 s p = some q) : q = p := by
  unfold pRuneCount at h
  injection h with h
  exact h.symm

theorem pRuneCount_succ {f : List Nat → Nat → Option Nat} {s : List Nat}
    {k p q : Nat} (h : pRuneCount f (k + 1) s p = some q) :
    ∃ r, f s p = some r ∧ pRuneCount f k s r = some q := by
  unfold pRuneCount at h
  simp only [Option.bind_eq_some] at h
  exact h

theorem finClassRuneAt_cases {s : List Nat} {p q : Nat}
    (h : finClassRuneAt s p = some q) :
    (q = p + 1 ∧ ∃ b, s.get? p = some b ∧ finFoldedByte b = true) ∨
    (q = p + 2 ∧ s.get? p = some 197 ∧ s.get? (p + 1) = some 191) ∨
    (q = p + 3 ∧ s.get? p = some 226 ∧ s.get? (p + 1) = some 132 ∧
      s.get? (p + 2) = some 170) := by
  unfold finClassRuneAt at h
  simp only [Option.bind_eq_some] at h
  obtain ⟨b, hg, h⟩ := h
  split at h
  · rename_i hc
    injection h with h
    exact Or.inl ⟨h.symm, b, hg, hc⟩
  · split at h
    · rename_i hc
      simp only [Bool.and_eq_true, decide_eq_true_eq] at hc
      injection h with h
      rw [hc.1] at hg
      exact Or.inr (Or.inl ⟨h.symm, hg, hc.2⟩)
    · split at h
      · rename_i hc
        simp only [Bool.and_eq_true, decide_eq_true_eq] at hc
        injection h with h
        rw [hc.1.1] at hg
        exact Or.inr (Or.inr ⟨h.symm, hg, hc.1.2, hc.2⟩)
      · exact absurd h (by simp)

theorem finLabeledAt_head {s : List Nat} {q : Nat} {m2 : Nat × Nat}
    (h : finLabeledAt s q = some m2) :
    ∃ c0 c1, s.get? q = some c0 ∧ (c0 = 70 ∨ c0 = 102) ∧
      s.get? (q + 1) = some c1 ∧ (c1 = 73 ∨ c1 = 105) := by
  unfold finLabeledAt at h
  simp only [Option.bind_eq_some, Option.map_eq_some'] at h
  obtain ⟨q0, h0, q1, h1, q2, h2, _⟩ := h
  obtain ⟨hq0, _⟩ := pBound_some h0
  subst hq0
  obtain ⟨e1, c0, hc0, hd0⟩ := pByte_char h1
  subst e1
  obtain ⟨e2, c1, hc1, hd1⟩ := pByte_char h2
  simp only [Bool.or_eq_true, decide_eq_true_eq] at hd0 hd1
  exact ⟨c0, c1, hc0, hd0, hc1, hd1⟩

theorem pBound_true {s : List Nat} {p q : Nat} (h : pBound s p = some q) :
    boundary s p = true := by
  unfold pBound at h
  by_cases hb : boundary s p
  · exact hb
  · rw [if_neg hb] at h
    exact absurd h (by simp)

theorem finLabeledAt_occur {s : List Nat} {p : Nat} {m : Nat × Nat}
    (h : finLabeledAt s p = some m) : finLabeledOccur s p m.1 m.2 := by
  unfold finLabeledAt at h
  simp only [Option.bind_eq_some, Option.map_eq_some'] at h
  obtain ⟨q0, h0, q1, h1, q2, h2, q3, h3, q4, h4, cs, h5, ce, h6, q7, h7, h8⟩ := h
  obtain ⟨hq0, _⟩ := pBound_some h0
  rw [hq0] at h0 h1
  obtain ⟨e1, b0, hb0, hdb0⟩ := pByte_char h1
  subst e1
  obtain ⟨e2, b1, hb1, hdb1⟩ := pByte_char h2
  subst e2
  obtain ⟨e3, b2, hb2, hdb2⟩ := pByte_char h3
  subst e3
  obtain ⟨e4, b3, hb3, hdb3⟩ := pByte_char h4
  subst e4
  obtain ⟨hq7, _⟩ := pBound_some h7
  rw [hq7] at h7
  have hm1 : m.1 = cs := by rw [← h8]
  have hm2 : m.2 = ce := by rw [← h8]
  rw [hm1, hm2]
  simp only [Bool.or_eq_true, decide_eq_true_eq] at hdb0 hdb1 hdb2 hdb3
  have hi2 : p + 1 + 1 = p + 2 := by omega
  have hi3 : p + 1 + 1 + 1 = p + 3 := by omega
  have hi4 : p + 1 + 1 + 1 + 1 = p + 4 := by omega
  rw [hi2] at hb2
  rw [hi3] at hb3
  have h5' : pOptByte wsByte s (p + 4) = some cs := by rw [← hi4]; exact h5
  refine ⟨pBound_true h0, ⟨b0, hb0, hdb0⟩, ⟨b1, hb1, hdb1⟩, ⟨b2, hb2, hdb2⟩,
    ⟨b3, hb3, hdb3⟩, ?_, h6, pBound_true h7⟩
  rcases pOptByte_cases h5' with ⟨hcs, hnws⟩ | ⟨hcs, bw, hbw, hwsw⟩
  · exact Or.inl ⟨hcs, hnws⟩
  · exact Or.inr ⟨by omega, bw, hbw, hwsw⟩

theorem pByte_intro {c : Nat → Bool} {s : List Nat} {p b : Nat}
    (hb : s.get? p = some b) (hc : c b = true) : pByte c s p = some (p + 1) := by
  unfold pByte
  rw [hb]
  show (if c b = true then some (p + 1) else none) = some (p + 1)
  rw [if_pos hc]

theorem pBound_intro {s : List Nat} {p : Nat} (hb : boundary s p = true) :
    pBound s p = some p := by
  unfold pBound
  rw [if_pos hb]

theorem pOptWs_none {s : List Nat} {p : Nat}
    (hn : ∀ b, s.get? p = some b → wsByte b = false) : pOptWs s p = some p := by
  unfold pOptWs pOptByte
  cases hg : s.get? p with
  | none => rfl
  | some b =>
    show some (if wsByte b = true then p + 1 else p) = some p
    rw [if_neg (by rw [hn b hg]; simp)]

theorem pOptWs_ws {s : List Nat} {p b : Nat} (hg : s.get? p = some b)
    (hw : wsByte b = true) : pOptWs s p = some (p + 1) := by
  unfold pOptWs pOptByte
  rw [hg]
  show some (if wsByte b = true then p + 1 else p) = some (p + 1)
  rw [if_pos hw]

theorem finLabeledOccur_at {s : List Nat} {p cs ce : Nat}
    (h : finLabeledOccur s p cs ce) : finLabeledAt s p = some (cs, ce) := by
  obtain ⟨hbp, ⟨b0, hb0, hd0⟩, ⟨b1, hb1, hd1⟩, ⟨b2, hb2, hd2⟩, ⟨b3, hb3, hd3⟩,
    hopt, hrc, hbce⟩ := h
  have h0 : pBound s p = some p := pBound_intro hbp
  have h1 : pByte (fun b => b = 70 || b = 102) s p = some (p + 1) :=
    pByte_intro hb0 (by rcases hd0 with rfl | rfl <;> decide)
  have h2 : pByte (fun b => b = 73 || b = 105) s (p + 1) = some (p + 2) :=
    pByte_intro hb1 (by rcases hd1 with rfl | rfl <;> decide)
  have h3 : pByte (fun b => b = 78 || b = 110) s (p + 2) = some (p + 3) :=
    pByte_intro hb2 (by rcases hd2 with rfl | rfl <;> decide)
  have hc4 : ((b3 = 58 : Bool) || wsByte b3) = true := by
    rcases hd3 with rfl | hw
    · decide
    · simp [hw]
  have h4 : pByte (fun b => b = 58 || wsByte b) s (p + 3) = some (p + 4) :=
    pByte_intro hb3 hc4
  have h5 : pOptWs s (p + 4) = some cs := by
    rcases hopt with ⟨rfl, hn⟩ | ⟨rfl, bw, hbw, hww⟩
    · exact pOptWs_none hn
    · exact pOptWs_ws hbw hww
  have h7 : pBound s ce = some ce := pBound_intro hbce
  simp only [finLabeledAt, h0, h1, h2, h3, h4, h5, hrc, h7,
    Option.some_bind, Option.map_some']

/-- Inside the seven case-folded class runes of a labeled FIN match, no
position can start the case-insensitive keyword `FIN`: the class
excludes I and i, and after the final rune the trailing word boundary
forbids a following word byte. -/
theorem runes_no_fin_inside {s : List Nat} :
    ∀ (k cs ce : Nat), pRuneCount finClassRuneAt k s cs = some ce →
      boundary s ce = true →
      ∀ q, cs ≤ q → q < ce →
        ¬ (∃ c0 c1, s.get? q = some c0 ∧ (c0 = 70 ∨ c0 = 102) ∧
            s.get? (q + 1) = some c1 ∧ (c1 = 73 ∨ c1 = 105)) := by
  intro k
  induction k with
  | zero =>
    intro cs ce h hb q hq1 hq2 hx
    have := pRuneCount_zero h
    omega
  | succ n ih =>
    intro cs ce h hb q hq1 hq2 hx
    obtain ⟨r1, hr1, hrest⟩ := pRuneCount_succ h
    by_cases hqr : r1 ≤ q
    · exact ih r1 ce hrest hb q hqr hq2 hx
    · push_neg at hqr
      obtain ⟨c0, c1, hc0, hd0, hc1, hd1⟩ := hx
      rcases finClassRuneAt_cases hr1 with
        ⟨he1, b, hgb, hfb⟩ | ⟨he1, hg1, hg2⟩ | ⟨he1, hg1, hg2, hg3⟩
      · have hqcs : q = cs := by omega
        subst hqcs
        cases n with
        | zero =>
          have hce := pRuneCount_zero hrest
          have hware : wordAt s ce = true := by
            unfold wordAt
            have hceq : ce = q + 1 := by omega
            rw [hceq, hc1]
            rcases hd1 with rfl | rfl <;> decide
          have hwprev : prevWord s ce = true := by
            have hceq : ce = q + 1 := by omega
            rw [hceq]
            show wordAt s q = true
            unfold wordAt
            rw [hc0]
            rcases hd0 with rfl | rfl <;> decide
          unfold boundary at hb
          rw [hware, hwprev] at hb
          simp at hb
        | succ n2 =>
          obtain ⟨r2, hr2, _⟩ := pRuneCount_succ hrest
          have hr1q : r1 = q + 1 := by omega
          rw [hr1q] at hr2
          rcases finClassRuneAt_cases hr2 with
            ⟨_, d, hgd, hfd⟩ | ⟨_, hgd, _⟩ | ⟨_, hgd, _, _⟩
          · rw [hc1] at hgd
            injection hgd with hgd
            rcases hd1 with rfl | rfl <;> rw [← hgd] at hfd <;>
              exact absurd hfd (by decide)
          · rw [hc1] at hgd
            injection hgd with hgd
            omega
          · rw [hc1] at hgd
            injection hgd with hgd
            omega
      · have : q = cs ∨ q = cs + 1 := by omega
        rcases this with rfl | hq'
        · rw [hg1] at hc0
          injection hc0 with hc0
          omega
        · rw [hq'] at hc0
          rw [hg2] at hc0
          injection hc0 with hc0
          omega
      · have : q = cs ∨ q = cs + 1 ∨ q = cs + 2 := by omega
        rcases this with rfl | hq' | hq'
        · rw [hg1] at hc0
          injection hc0 with hc0
          omega
        · rw [hq'] at hc0
          rw [hg2] at hc0
          injection hc0 with hc0
          omega
        · rw [hq'] at hc0
          rw [hg3] at hc0
          injection hc0 with hc0
          omega

/-- Two labeled FIN matches never overlap: a later match cannot start
inside an earlier one. -/
theorem finLabeledAt_no_overlap {s : List Nat} {p q : Nat} {m m2 : Nat × Nat}
    (hp : finLabeledAt s p = some m) (hq : finLabeledAt s q = some m2)
    (hpq : p < q) : m.2 ≤ q := by
  by_contra hlt
  push_neg at hlt
  have hop := finLabeledAt_occur hp
  obtain ⟨c0, c1, hc0, hd0, hc1, hd1⟩ := finLabeledAt_head hq
  obtain ⟨hbp, ⟨b0, hb0, hdb0⟩, ⟨b1, hb1, hdb1⟩, ⟨b2, hb2, hdb2⟩,
    ⟨b3, hb3, hdb3⟩, hopt, hrc, hbce⟩ := hop
  have hqpos : q = p + 1 ∨ q = p + 2 ∨ q = p + 3 ∨
      (q = p + 4 ∧ m.1 = p + 5) ∨ m.1 ≤ q := by
    rcases hopt with ⟨hcs, _⟩ | ⟨hcs, _⟩ <;> omega
  rcases hqpos with hq' | hq' | hq' | ⟨hq', hcs5⟩ | hin
  · rw [hq', hb1] at hc0
    injection hc0 with hc0
    omega
  · rw [hq', hb2] at hc0
    injection hc0 with hc0
    omega
  · rw [hq', hb3] at hc0
    injection hc0 with hc0
    rcases hdb3 with h58 | hws
    · omega
    · rw [hc0] at hws
      rcases hd0 with rfl | rfl <;> exact absurd hws (by decide)
  · rcases hopt with ⟨hcs, _⟩ | ⟨_, bw, hbw, hww⟩
    · omega
    · rw [hq', hbw] at hc0
      injection hc0 with hc0
      rw [hc0] at hww
      rcases hd0 with rfl | rfl <;> exact absurd hww (by decide)
  · exact runes_no_fin_inside 7 m.1 m.2 hrc hbce q hin hlt
      ⟨c0, c1, hc0, hd0, hc1, hd1⟩

/-- Scan completeness: when matches of `f` never start inside an
earlier match, every match is reported by the scan. -/
theorem scanAux_complete {f : Nat → Option (Nat × Nat)} {n : Nat}
    (H : ∀ p m q m2, f p = some m → f q = some m2 → p < q → m.2 ≤ q) :
    ∀ fuel p q m, n - p < fuel → p ≤ q → q < n → f q = some m →
      m ∈ scanAux f n fuel p := by
  intro fuel
  induction fuel with
  | zero => intro p q m h _ _ _; omega
  | succ k ih =>
    intro p q m hfuel hpq hqn hfq
    unfold scanAux
    rw [if_pos (by omega : p < n)]
    cases hfp : f p with
    | some m0 =>
      show m ∈ m0 :: scanAux f n k (max m0.2 (p + 1))
      by_cases hpq' : p = q
      · subst hpq'
        rw [hfp] at hfq
        injection hfq with hfq
        rw [hfq]
        exact List.mem_cons_self _ _
      · have hplt : p < q := by omega
        have hadv := H p m0 q m hfp hfq hplt
        refine List.mem_cons_of_mem _ (ih (max m0.2 (p + 1)) q m ?_ ?_ hqn hfq)
        · omega
        · omega
    | none =>
      show m ∈ scanAux f n k (p + 1)
      have hne : p ≠ q := by
        intro hh
        subst hh
        rw [hfp] at hfq
        exact Option.noConfusion hfq
      exact ih (p + 1) q m (by omega) (by omega) hqn hfq

theorem scanAll_complete {f : Nat → Option (Nat × Nat)} {n q : Nat}
    {m : Nat × Nat}
    (H : ∀ p m q m2, f p = some m → f q = some m2 → p < q → m.2 ≤ q)
    (hq : q < n) (hfq : f q = some m) : m ∈ scanAll f n :=
  scanAux_complete H (n + 1) 0 q m (by omega) (Nat.zero_le _) hq hfq

/-! ## The claims -/

/-- C1: for every input string, the list returned by `recognize` contains
no two entities whose `[start, end)` ranges intersect, and the list is
sorted by `start` ascending. -/
theorem c1_result_disjoint_sorted (s : List Nat) :
    (recognize s).Pairwise
      (fun a b => (a.«end» ≤ b.start ∨ b.«end» ≤ a.start) ∧ a.start ≤ b.start) :=
  (recognize_strong_pairwise s).imp (fun h => ⟨Or.inl h.1, Nat.le_of_lt h.2⟩)

/-- C2: for every input string and every entity `e` in the result of
`recognize`, the byte slice `input[e.start:e.end]` equals `e.text` and
`e.start < e.end` — zero-length entities are never produced, including
for URL entities whose text was trimmed of trailing punctuation. -/
theorem c2_span_faithful (s : List Nat) (e : Entity) (he : e ∈ recognize s) :
    slice s e.start e.«end» = e.text ∧ e.start < e.«end» := by
  have h := candidates_ok (recognize_subset he)
  exact ⟨h.2.2.symm, h.1⟩

/-- Witness for C2 at the concrete input `"info@gov.az"` and its Email
entity. -/
theorem c2_span_faithful_witness :
    slice (strBytes "info@gov.az") 0 11 = strBytes "info@gov.az" ∧ (0 : Nat) < 11 :=
  c2_span_faithful (strBytes "info@gov.az")
    { text := strBytes "info@gov.az", start := 0, «end» := 11,
      type := EntityType.Email, labeled := false } (by decide)

/-- C3: the overlap resolver first orders candidates by `start`
ascending, then span length descending, then labeled-first (the sorted
list below is a permutation of the input, pairwise consistent with the
comparator), and then performs the single greedy sweep `sweepSpec` with
`maxEnd` initially 0, committing a candidate exactly when its
`start ≥ maxEnd` and discarding every other candidate — partial
overlaps included, which never extend or revise a committed span. -/
theorem c3_resolver_greedy (l : List Entity) :
    resolveOverlaps l = sweepSpec (sortEnt l) 0 ∧
    (sortEnt l).Perm l ∧
    (sortEnt l).Pairwise (fun a b => entLess b a = false) :=
  ⟨resolveOverlaps_eq_spec l, sortEnt_perm l, sortEnt_pairwise l⟩

/-- C4: on `"FIN: 5ARPXK2, tel +994501234567"` the result has exactly
one FIN entity, text `"5ARPXK2"`, labeled, and exactly one Phone
entity, text `"+994501234567"`, unlabeled. -/
theorem c4_fin_phone_example :
    ((recognize (strBytes "FIN: 5ARPXK2, tel +994501234567")).filter
        (fun e => e.type == EntityType.FIN)).map (fun e => (e.text, e.labeled)) =
      [(strBytes "5ARPXK2", true)] ∧
    ((recognize (strBytes "FIN: 5ARPXK2, tel +994501234567")).filter
        (fun e => e.type == EntityType.Phone)).map (fun e => (e.text, e.labeled)) =
      [(strBytes "+994501234567", false)] := by
  decide

/-- C5: on `"AZ21NABZ00000000137010001944"` the result has exactly one
IBAN entity spanning the whole 28-character string, and no bare FIN or
VOEN entity survives inside that span. -/
theorem c5_iban_example :
    ((recognize (strBytes "AZ21NABZ00000000137010001944")).filter
        (fun e => e.type == EntityType.IBAN)).map
        (fun e => (e.start, e.«end», e.text)) =
      [(0, 28, strBytes "AZ21NABZ00000000137010001944")] ∧
    (strBytes "AZ21NABZ00000000137010001944").length = 28 ∧
    (recognize (strBytes "AZ21NABZ00000000137010001944")).filter
        (fun e => (e.type == EntityType.FIN || e.type == EntityType.VOEN)
          && !e.labeled) = [] := by
  decide

/-- C6: `recognize` returns the empty result on the empty input and,
more generally, whenever no matcher produced a candidate. -/
theorem c6_empty_result :
    recognize (strBytes "") = [] ∧
    ∀ s : List Nat, candidates s = [] → recognize s = [] := by
  refine ⟨by decide, ?_⟩
  intro s h
  unfold recognize
  rw [if_pos h]

/-- Witness for C6: a non-trivial input in which no matcher finds a
candidate. -/
theorem c6_empty_result_witness : recognize (strBytes "salam") = [] :=
  c6_empty_result.2 (strBytes "salam") (by decide)

/-- C8 counterexample: on `"FIN: abcdefg"` the code produces a labeled
FIN entity whose seven bytes (`"abcdefg"`) all lie outside the class
`[A-HJ-NP-Z0-9]` — the `(?i)` flag of `reFINLabeled` case-folds the
code character class too, so the claim's statement that the code is
drawn from `[A-HJ-NP-Z0-9]` is false as stated. -/
theorem c8_labeled_fin_counterexample :
    (recognize (strBytes "FIN: abcdefg")).map (fun e => (e.text, e.type, e.labeled)) =
      [(strBytes "abcdefg", EntityType.FIN, true)] ∧
    (strBytes "abcdefg").all (fun b => !finClassByte b) = true := by
  decide

/-- C8 amended: a labeled FIN entity is produced by `matchFIN` exactly
where the case-insensitive keyword `FIN` is followed by an optional
`:`/space separator and then a 7-character code matched
case-insensitively against `[A-HJ-NP-Z0-9]` (the `(?i)` flag folds the
class, so lowercase letters and the fold orbit members ſ and K are
accepted), and the entity's span covers only the 7-character code —
its start lies at least 4 bytes past the keyword start — never the
keyword or separator. -/
theorem c8_labeled_fin_amended (s : List Nat) (e : Entity) :
    (e ∈ matchFIN s ∧ e.labeled = true) ↔
    (∃ p, finLabeledOccur s p e.start e.«end» ∧ p + 4 ≤ e.start ∧
      e.type = EntityType.FIN ∧ e.labeled = true ∧
      e.text = slice s e.start e.«end») := by
  constructor
  · rintro ⟨hm, hlab⟩
    unfold matchFIN at hm
    rcases List.mem_append.1 hm with hm | hm
    · rcases List.mem_map.1 hm with ⟨m, hmem, he'⟩
      obtain ⟨p, hp⟩ := mem_scanAll hmem
      have hocc := finLabeledAt_occur hp
      have hstart : e.start = m.1 := by rw [← he']; rfl
      have hend : e.«end» = m.2 := by rw [← he']; rfl
      have htext : e.text = slice s e.start e.«end» := by
        rw [← he']; rfl
      have htype : e.type = EntityType.FIN := by rw [← he']; rfl
      refine ⟨p, ?_, ?_, htype, hlab, htext⟩
      · rw [hstart, hend]
        exact hocc
      · obtain ⟨_, _, _, _, _, hopt, _, _⟩ := hocc
        rw [hstart]
        rcases hopt with ⟨hcs, _⟩ | ⟨hcs, _⟩ <;> omega
    · rcases List.mem_map.1 hm with ⟨m, hmem, he'⟩
      rw [← he'] at hlab
      exact absurd hlab (by simp [mkEnt])
  · rintro ⟨p, hocc, hp4, htype, hlab, htext⟩
    obtain ⟨t, st, en, ty, lb⟩ := e
    have hty : ty = EntityType.FIN := htype
    have hlb : lb = true := hlab
    have htx : t = slice s st en := htext
    subst hty
    subst hlb
    subst htx
    refine ⟨?_, rfl⟩
    unfold matchFIN
    refine List.mem_append.2 (Or.inl (List.mem_map.2 ⟨(st, en), ?_, rfl⟩))
    have hat : finLabeledAt s p = some (st, en) := finLabeledOccur_at hocc
    have hplen : p < s.length := by
      obtain ⟨_, ⟨b0, hb0, _⟩, _⟩ := hocc
      exact get?_some_lt hb0
    exact scanAll_complete
      (fun p' m' q' m2' hp' hq' hlt => finLabeledAt_no_overlap hp' hq' hlt)
      hplen hat

/-- C9: word-boundary tests use ASCII word-character semantics: every
byte of a multi-byte character (all bytes ≥ 0x80, in particular those
of ə, ö, ü) is a non-word byte, so a 10-digit run or a 7-character code
directly adjacent to such a letter is still matched, the letter acting
like punctuation. -/
theorem c9_ascii_word_boundaries :
    (∀ b : Nat, 128 ≤ b → wordByte b = false) ∧
    (recognize (strBytes "ə1234567890ö")).map
        (fun e => (e.type, e.text, e.start, e.«end»)) =
      [(EntityType.VOEN, strBytes "1234567890", 2, 12)] ∧
    (recognize (strBytes "üAB12345ə")).map
        (fun e => (e.type, e.text, e.start, e.«end»)) =
      [(EntityType.FIN, strBytes "AB12345", 2, 9)] := by
  refine ⟨?_, by decide, by decide⟩
  intro b hb
  rw [Bool.eq_false_iff]
  intro h
  simp only [wordByte, digitByte, upperByte, lowerByte, Bool.or_eq_true,
    Bool.and_eq_true, decide_eq_true_eq] at h
  omega

/-- Witness for C9's universally quantified part at the lead byte of ə. -/
theorem c9_ascii_word_boundaries_witness : wordByte 201 = false :=
  c9_ascii_word_boundaries.1 201 (by omega)

/-- C10: on every non-empty candidate list `resolveOverlaps` returns a
non-empty result containing a candidate that is minimal under the
composite ordering (no candidate compares strictly below it); hence
`recognize` returns a non-empty list whenever any matcher produced a
candidate. -/
theorem c10_nonempty_and_best_committed :
    (∀ l : List Entity, l ≠ [] →
      resolveOverlaps l ≠ [] ∧
      ∃ m, m ∈ resolveOverlaps l ∧ ∀ x ∈ l, entLess x m = false) ∧
    (∀ s : List Nat, candidates s ≠ [] → recognize s ≠ []) := by
  have part1 : ∀ l : List Entity, l ≠ [] →
      resolveOverlaps l ≠ [] ∧
      ∃ m, m ∈ resolveOverlaps l ∧ ∀ x ∈ l, entLess x m = false := by
    intro l hl
    rcases l with _ | ⟨a, _ | ⟨b, t⟩⟩
    · exact absurd rfl hl
    · constructor
      · show resolveOverlaps [a] ≠ []
        unfold resolveOverlaps
        rw [if_pos (by simp)]
        simp
      · refine ⟨a, ?_, ?_⟩
        · show a ∈ resolveOverlaps [a]
          unfold resolveOverlaps
          rw [if_pos (by simp)]
          exact List.mem_cons_self _ _
        · intro x hx
          rcases List.mem_cons.1 hx with rfl | hx
          · exact entLess_irrefl x
          · simp at hx
    · have hlen : ¬ (a :: b :: t).length ≤ 1 := by simp
      have hres : resolveOverlaps (a :: b :: t) = sweep (sortEnt (a :: b :: t)) 0 := by
        unfold resolveOverlaps
        rw [if_neg hlen]
      cases hse : sortEnt (a :: b :: t) with
      | nil =>
        have := (sortEnt_perm (a :: b :: t)).length_eq
        rw [hse] at this
        simp at this
      | cons h rest =>
        have hsw : sweep (h :: rest) 0 = h :: sweep rest h.«end» := by
          conv_lhs => unfold sweep
          rw [if_pos (Nat.zero_le _)]
        constructor
        · rw [hres, hse, hsw]
          simp
        · refine ⟨h, ?_, ?_⟩
          · rw [hres, hse, hsw]
            exact List.mem_cons_self _ _
          · intro x hx
            have hx' : x ∈ sortEnt (a :: b :: t) := mem_sortEnt.2 hx
            rw [hse] at hx'
            rcases List.mem_cons.1 hx' with rfl | hx'
            · exact entLess_irrefl x
            · have hp := sortEnt_pairwise (a :: b :: t)
              rw [hse] at hp
              exact (List.pairwise_cons.1 hp).1 x hx'
  refine ⟨part1, ?_⟩
  intro s h
  unfold recognize
  rw [if_neg h]
  intro hnil
  have hlen := (sortByStart_perm (resolveOverlaps (candidates s))).length_eq
  rw [hnil] at hlen
  have : resolveOverlaps (candidates s) = [] :=
    List.length_eq_zero.1 hlen.symm
  exact (part1 (candidates s) h).1 this

/-- Witness for C10 at a one-element candidate list and at the concrete
input `"info@gov.az"`. -/
theorem c10_nonempty_witness :
    (resolveOverlaps [egEnt] ≠ [] ∧
      ∃ m, m ∈ resolveOverlaps [egEnt] ∧ ∀ x ∈ [egEnt], entLess x m = false) ∧
    recognize (strBytes "info@gov.az") ≠ [] :=
  ⟨c10_nonempty_and_best_committed.1 _ (by simp),
   c10_nonempty_and_best_committed.2 _ (by decide)⟩

/-- C7: every URL entity is a match of `http://` or `https://` followed
by one or more non-whitespace, non-bracket bytes (the class `urlByte`),
with trailing punctuation stripped from its text and the end offset
shrunk to `start + len(text)`. -/
theorem c7_url_shape (s : List Nat) (e : Entity) (he : e ∈ recognize s)
    (ht : e.type = EntityType.URL) :
    ∃ k r,
      ((k = 7 ∧ slice s e.start (e.start + k) = strBytes "http://") ∨
       (k = 8 ∧ slice s e.start (e.start + k) = strBytes "https://")) ∧
      e.start + k < r ∧ r ≤ s.length ∧
      (∀ i, e.start + k ≤ i → i < r → ∃ b, s.get? i = some b ∧ urlByte b = true) ∧
      e.text = trimPunct (slice s e.start r) ∧
      e.«end» = e.start + e.text.length := by
  have hm := candidates_url (recognize_subset he) ht
  unfold matchURL at hm
  rcases List.mem_map.1 hm with ⟨m, hmem, he'⟩
  have hstart : e.start = m.1 := by rw [← he']
  have htext : e.text = trimPunct (slice s m.1 m.2) := by rw [← he']
  have hend : e.«end» = e.start + e.text.length := by rw [← he']
  obtain ⟨q, hq⟩ := mem_scanAll hmem
  obtain ⟨hg, h1⟩ := spans_some hq
  subst h1
  unfold urlAt at hg
  simp only [Option.bind_eq_some] at hg
  obtain ⟨q1, hb1, q2, hb2, q3, hb3, hplus⟩ := hg
  have e1 := pBytes_some _ _ _ hb1
  have s1 := pBytes_slice _ _ _ hb1
  have e3 := pBytes_some _ _ _ hb3
  have s3 := pBytes_slice _ _ _ hb3
  obtain ⟨hq3r, hrle⟩ := pPlus_some hplus
  have hr : m.2 = runEnd urlByte s q3 := by
    simp only [pPlus] at hplus
    split at hplus
    · injection hplus with hplus; exact hplus.symm
    · exact absurd hplus (by simp)
  simp only [List.length_cons, List.length_nil] at e1 e3
  have hrun : ∀ i, q3 ≤ i → i < m.2 →
      ∃ b, s.get? i = some b ∧ urlByte b = true := by
    intro i hh1 hh2
    rw [hr] at hh2
    exact runEnd_sat hh1 hh2
  rw [hstart, htext]
  rcases pOptByte_cases hb2 with ⟨hq2, _⟩ | ⟨hq2, b, hgb, hcb⟩
  · rw [hq2] at s3
    refine ⟨7, m.2, Or.inl ⟨rfl, ?_⟩, by omega, hrle, ?_, rfl,
      by rw [hend, hstart, htext]⟩
    · have hsp := slice_append (s := s) (p := m.1) (q := q1) (r := q3)
        (by omega) (by omega)
      have h7 : m.1 + 7 = q3 := by omega
      rw [h7, ← hsp, s1, s3]
      decide
    · intro i hi1 hi2
      exact hrun i (by omega) hi2
  · simp only [decide_eq_true_eq] at hcb
    subst hcb
    rw [hq2] at s3
    refine ⟨8, m.2, Or.inr ⟨rfl, ?_⟩, by omega, hrle, ?_, rfl,
      by rw [hend, hstart, htext]⟩
    · have ha1 := slice_append (s := s) (p := m.1) (q := q1) (r := q1 + 1)
        (by omega) (by omega)
      have ha2 := slice_append (s := s) (p := m.1) (q := q1 + 1) (r := q3)
        (by omega) (by omega)
      have h8 : m.1 + 8 = q3 := by omega
      rw [h8, ← ha2, ← ha1, slice_singleton hgb, s1, s3]
      decide
    · intro i hi1 hi2
      exact hrun i (by omega) hi2

/-- Witness for C7 at the concrete input `"see https://gov.az/page. done"`
and its URL entity. -/
theorem c7_url_shape_witness :
    ∃ k r,
      ((k = 7 ∧ slice (strBytes "see https://gov.az/page. done") 4 (4 + k) =
          strBytes "http://") ∨
       (k = 8 ∧ slice (strBytes "see https://gov.az/page. done") 4 (4 + k) =
          strBytes "https://")) ∧
      4 + k < r ∧ r ≤ (strBytes "see https://gov.az/page. done").length ∧
      (∀ i, 4 + k ≤ i → i < r →
        ∃ b, (strBytes "see https://gov.az/page. done").get? i = some b ∧
          urlByte b = true) ∧
      strBytes "https://gov.az/page" =
        trimPunct (slice (strBytes "see https://gov.az/page. done") 4 r) ∧
      (23 : Nat) = 4 + (strBytes "https://gov.az/page").length :=
  c7_url_shape (strBytes "see https://gov.az/page. done")
    { text := strBytes "https://gov.az/page", start := 4, «end» := 23,
      type := EntityType.URL, labeled := false } (by decide) rfl

end NER
